import Mathlib

/-!
Verification of the core logic of `lector_tts_dash_web.py` (v5.1):
the entity-protection / restoration pipeline used before machine
translation, the translator wrapper, the language detector, the playback
tokenizer and highlight renderer, the playback stop handler, and the
file-upload text extraction dispatch.

Strings are modelled as `List Char` (`Str`).  External collaborators
(the langdetect call, the Google translation backend, the optional spaCy
NER models, and the per-format document extractors) are modelled as
explicit function parameters, since their behaviour is not part of this
repository.
-/

namespace Lector

abbrev Str := List Char

/-! ## Character classes

`CAP_PAT = \b[A-ZÁÉÍÓÚÑÜ][a-záéíóúñü]{2,}(?:\s+[A-ZÁÉÍÓÚÑÜ][a-záéíóúñü]{2,})*`
uses the explicit accented Latin ranges below; `\s` and `\b` follow
Python's `re` semantics (whitespace, word = alphanumeric or underscore,
restricted to the alphabets that occur in this program's patterns). -/

def pySpaceChars : Str := [' ', '\t', '\n', '\r', '\x0b', '\x0c']

def isPySpace (c : Char) : Bool := c ∈ pySpaceChars

def upperChars : Str := "ABCDEFGHIJKLMNOPQRSTUVWXYZÁÉÍÓÚÑÜ".toList

def lowerChars : Str := "abcdefghijklmnopqrstuvwxyzáéíóúñü".toList

def digitChars : Str := "0123456789".toList

def isCapCh (c : Char) : Bool := c ∈ upperChars

def isLowCh (c : Char) : Bool := c ∈ lowerChars

def isDigitCh (c : Char) : Bool := c ∈ digitChars

def isWordCh (c : Char) : Bool := isCapCh c || isLowCh c || isDigitCh c || c = '_'

/-- Characters that can occur in a placeholder tag `[[i]]`:
the two kinds of square bracket and the decimal digits. -/
def isTagCh (c : Char) : Bool := c = '[' || c = ']' || isDigitCh c

theorem isTagCh_of_isDigitCh {c : Char} (h : isDigitCh c = true) : isTagCh c = true := by
  simp [isTagCh, h]

theorem isDigitCh_ne_lbrack {c : Char} (h : isDigitCh c = true) : c ≠ '[' := by
  intro he; subst he; simp [isDigitCh, digitChars] at h

theorem isDigitCh_ne_rbrack {c : Char} (h : isDigitCh c = true) : c ≠ ']' := by
  intro he; subst he; simp [isDigitCh, digitChars] at h

/-! ## Decimal rendering of tag indices

`f"[[{i}]]"` renders `i` in decimal; `natDigits` produces those digit
characters, most significant first. -/

def digitCh : ℕ → Char
  | 0 => '0'
  | 1 => '1'
  | 2 => '2'
  | 3 => '3'
  | 4 => '4'
  | 5 => '5'
  | 6 => '6'
  | 7 => '7'
  | 8 => '8'
  | _ => '9'

def natDigitsF : ℕ → ℕ → Str
  | 0, _ => ['0']
  | fuel + 1, n =>
    if n < 10 then [digitCh n]
    else natDigitsF fuel (n / 10) ++ [digitCh (n % 10)]

def natDigits (n : ℕ) : Str := natDigitsF (n + 1) n

theorem natDigitsF_stable :
    ∀ (n f1 f2 : ℕ), n < f1 → n < f2 → natDigitsF f1 n = natDigitsF f2 n := by
  intro n
  induction n using Nat.strong_induction_on with
  | _ n ih =>
    intro f1 f2 h1 h2
    cases f1 with
    | zero => omega
    | succ f1 =>
      cases f2 with
      | zero => omega
      | succ f2 =>
        simp only [natDigitsF]
        by_cases hn : n < 10
        · rw [if_pos hn, if_pos hn]
        · rw [if_neg hn, if_neg hn]
          have hlt : n / 10 < n := Nat.div_lt_self (by omega) (by omega)
          rw [ih (n / 10) hlt f1 f2 (by omega) (by omega)]

theorem natDigits_eq (n : ℕ) :
    natDigits n = if n < 10 then [digitCh n]
      else natDigits (n / 10) ++ [digitCh (n % 10)] := by
  show natDigitsF (n + 1) n = _
  rw [show natDigitsF (n + 1) n =
    (if n < 10 then [digitCh n] else natDigitsF n (n / 10) ++ [digitCh (n % 10)]) from rfl]
  by_cases hn : n < 10
  · rw [if_pos hn, if_pos hn]
  · rw [if_neg hn, if_neg hn]
    have hlt : n / 10 < n := Nat.div_lt_self (by omega) (by omega)
    rw [natDigitsF_stable (n / 10) n (n / 10 + 1) hlt (by omega)]
    rfl

theorem digitCh_isDigit (n : ℕ) : isDigitCh (digitCh n) = true := by
  match n with
  | 0 | 1 | 2 | 3 | 4 | 5 | 6 | 7 | 8 => rfl
  | (m + 9) => rfl

def digitVal (c : Char) : ℕ :=
  c.toNat - 48

theorem digitVal_digitCh {n : ℕ} (h : n < 10) : digitVal (digitCh n) = n := by
  interval_cases n <;> rfl

theorem natDigits_ne_nil (n : ℕ) : natDigits n ≠ [] := by
  rw [natDigits_eq]
  split <;> simp

theorem natDigits_all_digit (n : ℕ) : ∀ c ∈ natDigits n, isDigitCh c = true := by
  induction n using Nat.strong_induction_on with
  | _ n ih =>
    rw [natDigits_eq]
    split
    · intro c hc
      simp at hc
      subst hc
      exact digitCh_isDigit n
    · intro c hc
      rcases List.mem_append.1 hc with h1 | h1
      · exact ih (n / 10) (Nat.div_lt_self (by omega) (by omega)) c h1
      · simp at h1
        subst h1
        exact digitCh_isDigit (n % 10)

def digitsVal (s : Str) : ℕ :=
  s.foldl (fun a c => 10 * a + digitVal c) 0

theorem digitsVal_append_cons (s : Str) (c : Char) :
    digitsVal (s ++ [c]) = 10 * digitsVal s + digitVal c := by
  simp [digitsVal, List.foldl_append]

theorem digitsVal_natDigits (n : ℕ) : digitsVal (natDigits n) = n := by
  induction n using Nat.strong_induction_on with
  | _ n ih =>
    rw [natDigits_eq]
    split
    · rename_i h
      simp [digitsVal, digitVal_digitCh h]
    · rename_i h
      rw [digitsVal_append_cons, ih (n / 10) (Nat.div_lt_self (by omega) (by omega)),
        digitVal_digitCh (Nat.mod_lt n (by omega))]
      omega

theorem natDigits_injective {m n : ℕ} (h : natDigits m = natDigits n) : m = n := by
  have := digitsVal_natDigits m
  rw [h, digitsVal_natDigits] at this
  exact this.symm

/-! ## Placeholder tags

`TAG = "[["`; the tag for index `i` is the string `f"[[{i}]]"`. -/

def tagL (i : ℕ) : Str := '[' :: '[' :: (natDigits i ++ [']', ']'])

theorem tagL_ne_nil (i : ℕ) : tagL i ≠ [] := by simp [tagL]

theorem tagL_all_tagCh (i : ℕ) : ∀ c ∈ tagL i, isTagCh c = true := by
  intro c hc
  simp only [tagL, List.mem_cons, List.mem_append, List.mem_singleton] at hc
  rcases hc with h | h | h | h
  · subst h; rfl
  · subst h; rfl
  · exact isTagCh_of_isDigitCh (natDigits_all_digit i c h)
  · rcases h with h | h
    · subst h; rfl
    · simp at h; subst h; rfl

/-! ## Python `str.replace`

`s.replace(old, new)` replaces every non-overlapping occurrence of `old`
in `s` from left to right, resuming the scan after each replacement.
The program never calls `replace` with an empty pattern, so the model
leaves the string unchanged in that (unreachable) case. -/

def replaceAllF (p r : Str) : ℕ → Str → Str
  | 0, s => s
  | _ + 1, [] => []
  | fuel + 1, c :: s =>
    if p ≠ [] ∧ p <+: (c :: s) then
      r ++ replaceAllF p r fuel ((c :: s).drop p.length)
    else
      c :: replaceAllF p r fuel s

def replaceAll (p r s : Str) : Str := replaceAllF p r s.length s

theorem replaceAllF_stable (p r : Str) :
    ∀ (f1 : ℕ) (s : Str) (f2 : ℕ), s.length ≤ f1 → s.length ≤ f2 →
      replaceAllF p r f1 s = replaceAllF p r f2 s := by
  intro f1
  induction f1 with
  | zero =>
    intro s f2 h1 _
    have : s = [] := List.length_eq_zero.1 (Nat.le_zero.1 h1)
    subst this
    cases f2 <;> rfl
  | succ f1 ih =>
    intro s f2 h1 h2
    cases s with
    | nil => cases f2 <;> rfl
    | cons c s' =>
      cases f2 with
      | zero => simp at h2
      | succ f2 =>
        simp only [replaceAllF]
        by_cases hm : p ≠ [] ∧ p <+: (c :: s')
        · rw [if_pos hm, if_pos hm]
          have hp1 : 1 ≤ p.length := by
            cases p with
            | nil => exact absurd rfl hm.1
            | cons d q => simp
          have hd : ((c :: s').drop p.length).length ≤ f1 ∧
              ((c :: s').drop p.length).length ≤ f2 := by
            simp only [List.length_drop, List.length_cons]
            simp only [List.length_cons] at h1 h2
            omega
          rw [ih _ f2 hd.1 hd.2]
        · rw [if_neg hm, if_neg hm]
          simp only [List.length_cons] at h1 h2
          rw [ih s' f2 (by omega) (by omega)]

theorem replaceAll_nil (p r : Str) : replaceAll p r [] = [] := rfl

theorem replaceAll_eq (p r : Str) (c : Char) (s : Str) :
    replaceAll p r (c :: s) =
      if p ≠ [] ∧ p <+: (c :: s) then
        r ++ replaceAll p r ((c :: s).drop p.length)
      else
        c :: replaceAll p r s := by
  show replaceAllF p r (s.length + 1) (c :: s) = _
  simp only [replaceAllF]
  by_cases hm : p ≠ [] ∧ p <+: (c :: s)
  · rw [if_pos hm, if_pos hm]
    have hp1 : 1 ≤ p.length := by
      cases p with
      | nil => exact absurd rfl hm.1
      | cons d q => simp
    rw [replaceAllF_stable p r s.length _ ((c :: s).drop p.length).length
      (by simp only [List.length_drop, List.length_cons]; omega) le_rfl]
    rfl
  · rw [if_neg hm, if_neg hm]
    rfl

theorem replaceAll_step {p : Str} (r : Str) {c : Char} {s : Str}
    (h : ¬(p ≠ [] ∧ p <+: (c :: s))) :
    replaceAll p r (c :: s) = c :: replaceAll p r s := by
  rw [replaceAll_eq, if_neg h]

theorem replaceAll_match {p : Str} (r : Str) {s : Str} (hp : p ≠ []) (h : p <+: s) :
    replaceAll p r s = r ++ replaceAll p r (s.drop p.length) := by
  cases s with
  | nil =>
    obtain ⟨t, ht⟩ := h
    rcases List.append_eq_nil.1 ht with ⟨h1, _⟩
    exact absurd h1 hp
  | cons c s => rw [replaceAll_eq, if_pos ⟨hp, h⟩]

/-- An occurrence that is a prefix gives an infix occurrence. -/
theorem infixOfPre {p s : Str} (h : p <+: s) : p <:+: s := by
  obtain ⟨t, ht⟩ := h
  exact ⟨[], t, by simpa using ht⟩

theorem infixCons {p s : Str} (c : Char) (h : p <:+: s) : p <:+: c :: s := by
  obtain ⟨u, v, huv⟩ := h
  exact ⟨c :: u, v, by simp [huv]⟩

/-- If the pattern occurs nowhere, `replaceAll` is the identity. -/
theorem replaceAll_no_occ {p : Str} (r : Str) {s : Str} (h : ¬ p <:+: s) :
    replaceAll p r s = s := by
  induction s with
  | nil => exact replaceAll_nil p r
  | cons c s ih =>
    rw [replaceAll_step r]
    · rw [ih fun hi => h (infixCons c hi)]
    · rintro ⟨_, h2⟩
      exact h (infixOfPre h2)

/-- A match at the front is replaced and the scan resumes after it. -/
theorem replaceAll_head {p : Str} (r : Str) (w : Str) (hp : p ≠ []) :
    replaceAll p r (p ++ w) = r ++ replaceAll p r w := by
  rw [replaceAll_match r hp ⟨w, rfl⟩, List.drop_left p w]

/-- Splitting a prefix of a concatenation at the boundary. -/
theorem preAppendCases {p a b : Str} (h : p <+: a ++ b) :
    (p.length ≤ a.length ∧ p <+: a) ∨ (a <+: p ∧ p.drop a.length <+: b) := by
  induction a generalizing p with
  | nil =>
    right
    exact ⟨⟨p, rfl⟩, by simpa using h⟩
  | cons c a ih =>
    cases p with
    | nil => exact Or.inl ⟨by simp, ⟨c :: a, rfl⟩⟩
    | cons d p =>
      obtain ⟨t, ht⟩ := h
      rw [List.cons_append, List.cons_append] at ht
      injection ht with h1 h2
      subst h1
      rcases ih ⟨t, h2⟩ with ⟨hl, u, hu⟩ | ⟨⟨u, hu⟩, hdrop⟩
      · exact Or.inl ⟨by simp; omega, ⟨u, by simp [hu]⟩⟩
      · refine Or.inr ⟨⟨u, by simp [hu]⟩, ?_⟩
        simpa using hdrop

/-- No occurrence of `p` that starts inside `a` reaches into `b`. -/
def CrossFree (p a b : Str) : Prop :=
  ∀ y : Str, y ≠ [] → y <:+ a → p <+: (y ++ b) → p.length ≤ y.length

theorem crossFree_of_suffix {p a b t : Str} (h : CrossFree p a b) (ht : t <:+ a) :
    CrossFree p t b :=
  fun y hy hys hp => h y hy (hys.trans ht) hp

/-- When no occurrence of the pattern spans the boundary, `replaceAll`
distributes over concatenation. -/
theorem replaceAll_append {p : Str} (r : Str) :
    ∀ (n : ℕ) (a : Str), a.length ≤ n → ∀ (b : Str), CrossFree p a b →
      replaceAll p r (a ++ b) = replaceAll p r a ++ replaceAll p r b := by
  intro n
  induction n with
  | zero =>
    intro a ha b _
    have : a = [] := List.length_eq_zero.1 (Nat.le_zero.1 ha)
    subst this
    simp [replaceAll_nil]
  | succ n ih =>
    intro a ha b hcf
    cases a with
    | nil => simp [replaceAll_nil]
    | cons c a' =>
      by_cases hm : p ≠ [] ∧ p <+: ((c :: a') ++ b)
      · have hlen : p.length ≤ (c :: a').length :=
          hcf (c :: a') (by simp) (by exact ⟨[], by simp⟩) hm.2
        have hpa : p <+: c :: a' := by
          rcases preAppendCases hm.2 with ⟨_, hp⟩ | ⟨hap, _⟩
          · exact hp
          · obtain ⟨t, ht⟩ := hap
            have hlt : t = [] := by
              have h1 : p.length = (c :: a').length + t.length := by
                rw [← ht, List.length_append]
              exact List.length_eq_zero.1 (by omega)
            subst hlt
            exact ⟨[], by simp [← ht]⟩
        obtain ⟨t, ht⟩ := hpa
        have hteq : c :: a' = p ++ t := ht.symm
        rw [hteq, List.append_assoc]
        rw [replaceAll_head r (t ++ b) hm.1, replaceAll_head r t hm.1]
        have htlen : t.length ≤ n := by
          have h1 : (c :: a').length = p.length + t.length := by
            rw [hteq, List.length_append]
          have h2 : 1 ≤ p.length := by
            cases p with
            | nil => exact absurd rfl hm.1
            | cons _ _ => simp
          simp at h1 ha
          omega
        have hsuf : t <:+ c :: a' := ⟨p, ht⟩
        rw [ih t htlen b (crossFree_of_suffix hcf hsuf), List.append_assoc]
      · have hm' : ¬(p ≠ [] ∧ p <+: (c :: a')) := by
          rintro ⟨h1, t, ht⟩
          exact hm ⟨h1, t ++ b, by rw [← List.append_assoc, ht]⟩
        rw [List.cons_append, replaceAll_step r (by simpa using hm), replaceAll_step r hm']
        have ha' : a'.length ≤ n := by simp at ha; omega
        have hsuf : a' <:+ c :: a' := ⟨[c], rfl⟩
        rw [ih a' ha' b (crossFree_of_suffix hcf hsuf), List.cons_append]

/-- Combined skip: if additionally `p` occurs nowhere in `a`, the whole
of `a` passes through unchanged. -/
theorem replaceAll_skip {p : Str} (r : Str) {a b : Str}
    (hcf : CrossFree p a b) (hni : ¬ p <:+: a) :
    replaceAll p r (a ++ b) = a ++ replaceAll p r b := by
  rw [replaceAll_append r a.length a le_rfl b hcf, replaceAll_no_occ r hni]

/-! ## Occurrence analysis for tags

No occurrence of a tag `[[k]]` in a guarded string can start strictly
inside another tag or straddle a chunk/tag boundary: the double bracket
`[[` pins every tag occurrence to a tag start, and the decimal digits
then force the indices to agree. -/

theorem consPre {x y : Char} {xs ys : Str} (h : x :: xs <+: y :: ys) :
    x = y ∧ xs <+: ys := by
  obtain ⟨t, ht⟩ := h
  injection ht with h1 h2
  exact ⟨h1, ⟨t, h2⟩⟩

theorem suffix_head_mem {c : Char} {ys a : Str} (h : c :: ys <:+ a) : c ∈ a := by
  obtain ⟨u, hu⟩ := h
  rw [← hu]
  simp

theorem digitsPreEq :
    ∀ (a b u v : Str), (∀ c ∈ a, isDigitCh c = true) → (∀ c ∈ b, isDigitCh c = true) →
      (a ++ ']' :: u) <+: (b ++ ']' :: v) → a = b := by
  intro a
  induction a with
  | nil =>
    intro b u v _ hb h
    cases b with
    | nil => rfl
    | cons d b' =>
      rw [List.nil_append, List.cons_append] at h
      have h1 := (consPre h).1
      exact absurd h1.symm (isDigitCh_ne_rbrack (hb d (by simp)))
  | cons c a' ih =>
    intro b u v ha hb h
    cases b with
    | nil =>
      rw [List.cons_append, List.nil_append] at h
      have h1 := (consPre h).1
      exact absurd h1 (isDigitCh_ne_rbrack (ha c (by simp)))
    | cons d b' =>
      rw [List.cons_append, List.cons_append] at h
      have h1 := (consPre h).1
      have h2 := ih b' u v (fun x hx => ha x (by simp [hx])) (fun x hx => hb x (by simp [hx]))
        (consPre h).2
      rw [h1, h2]

/-- A tag that is a prefix of another tag (with arbitrary continuation)
has the same index. -/
theorem tagPre_eq {i k : ℕ} {w : Str} (h : tagL i <+: tagL k ++ w) : i = k := by
  unfold tagL at h
  rw [List.cons_append, List.cons_append] at h
  have h2 := (consPre (consPre h).2).2
  rw [List.append_assoc] at h2
  exact natDigits_injective (digitsPreEq _ _ [']'] (']' :: w)
    (natDigits_all_digit i) (natDigits_all_digit k) h2)

theorem lbrack_not_mem_tagTail {k : ℕ} : '[' ∉ natDigits k ++ [']', ']'] := by
  intro hm
  rcases List.mem_append.1 hm with h | h
  · exact isDigitCh_ne_lbrack (natDigits_all_digit k '[' h) rfl
  · simp at h

theorem tag_not_infix_tag {i k : ℕ} (hik : i ≠ k) : ¬ tagL i <:+: tagL k := by
  rintro ⟨u, v, huv⟩
  rcases u with _ | ⟨c, u'⟩
  · exact hik (tagPre_eq (w := []) ⟨v, by simpa using huv⟩)
  · rcases u' with _ | ⟨e, u''⟩
    · have huv2 : c :: (tagL i ++ v) = tagL k := by simpa using huv
      rw [show tagL k = '[' :: '[' :: (natDigits k ++ [']', ']']) from rfl] at huv2
      injection huv2 with h1 h2
      rw [show tagL i = '[' :: ('[' :: (natDigits i ++ [']', ']'])) from rfl,
        List.cons_append] at h2
      injection h2 with h3 h4
      apply lbrack_not_mem_tagTail (k := k)
      rw [← h4]
      simp
    · have huv2 : c :: e :: (u'' ++ tagL i ++ v) = tagL k := by
        rw [← huv]
        simp
      rw [show tagL k = '[' :: '[' :: (natDigits k ++ [']', ']']) from rfl] at huv2
      injection huv2 with h1 h2
      injection h2 with h3 h4
      apply lbrack_not_mem_tagTail (k := k)
      rw [← h4]
      have hm : '[' ∈ tagL i := by simp [tagL]
      simp [hm]

/-- Admissible continuations after a chunk: empty, a tag start, or a
character that cannot occur in a tag. -/
def GoodTail (w : Str) : Prop :=
  w = [] ∨ (∃ w', w = '[' :: '[' :: w') ∨ (∃ c w', w = c :: w' ∧ isTagCh c = false)

/-- A proper nonempty tail of a tag is never a prefix of a good
continuation. -/
theorem dropTag_not_pre {k m : ℕ} (h1 : 1 ≤ m) (h2 : m < (tagL k).length) {w : Str}
    (hw : GoodTail w) : ¬ (tagL k).drop m <+: w := by
  intro hpre
  rcases Nat.lt_or_ge m 2 with hm | hm
  · -- m = 1
    have hm1 : m = 1 := by omega
    subst hm1
    obtain ⟨d, ds, hnd⟩ := List.exists_cons_of_ne_nil (natDigits_ne_nil k)
    have hz : (tagL k).drop 1 = '[' :: d :: (ds ++ [']', ']']) := by
      simp [tagL, hnd]
    rw [hz] at hpre
    have hd : isDigitCh d = true := natDigits_all_digit k d (by simp [hnd])
    rcases hw with hw | ⟨w', hw⟩ | ⟨c, w', hw, hc⟩
    · subst hw
      obtain ⟨t, ht⟩ := hpre
      simp at ht
    · subst hw
      have := (consPre (consPre hpre).2).1
      exact isDigitCh_ne_lbrack hd this
    · subst hw
      have := (consPre hpre).1
      rw [← this] at hc
      simp [isTagCh] at hc
  · -- m ≥ 2
    obtain ⟨j, hj⟩ : ∃ j, m = j + 2 := ⟨m - 2, by omega⟩
    subst hj
    have hz : (tagL k).drop (j + 2) = (natDigits k ++ [']', ']']).drop j := by
      simp [tagL]
    rw [hz] at hpre
    have hzne : (natDigits k ++ [']', ']']).drop j ≠ [] := by
      rw [ne_eq, List.drop_eq_nil_iff]
      have : (tagL k).length = (natDigits k).length + 4 := by simp [tagL]
      simp
      omega
    obtain ⟨c0, z', hcz⟩ := List.exists_cons_of_ne_nil hzne
    rw [hcz] at hpre
    have hc0mem : c0 ∈ natDigits k ++ [']', ']'] := by
      apply List.mem_of_mem_drop (n := j)
      rw [hcz]
      simp
    have hc0 : isTagCh c0 = true ∧ c0 ≠ '[' := by
      rcases List.mem_append.1 hc0mem with h | h
      · have := natDigits_all_digit k c0 h
        exact ⟨isTagCh_of_isDigitCh this, isDigitCh_ne_lbrack this⟩
      · simp at h
        subst h
        exact ⟨rfl, by decide⟩
    rcases hw with hw | ⟨w', hw⟩ | ⟨c, w', hw, hc⟩
    · subst hw
      obtain ⟨t, ht⟩ := hpre
      simp at ht
    · subst hw
      exact hc0.2 (consPre hpre).1
    · subst hw
      have := (consPre hpre).1
      rw [← this] at hc
      rw [hc0.1] at hc
      exact Bool.noConfusion hc

/-! CrossFree facts used when scanning a guarded string for a tag or a
protected span. -/

theorem crossFree_tag {k : ℕ} {a w : Str} (hw : GoodTail w) : CrossFree (tagL k) a w := by
  intro y hy _ hp
  rcases preAppendCases hp with ⟨hle, _⟩ | ⟨hyp, hdrop⟩
  · exact hle
  · by_cases hge : (tagL k).length ≤ y.length
    · exact hge
    · exfalso
      have h1 : 1 ≤ y.length := List.length_pos.2 hy
      exact dropTag_not_pre h1 (by omega) hw hdrop

theorem crossFree_tag_after {i k : ℕ} (hik : i ≠ k) (w : Str) :
    CrossFree (tagL k) (tagL i) w := by
  intro y hy hys hp
  rcases preAppendCases hp with ⟨hle, _⟩ | ⟨hyp, _⟩
  · exact hle
  · exfalso
    obtain ⟨u, hu⟩ := hys
    rcases u with _ | ⟨c, u'⟩
    · rw [List.nil_append] at hu
      subst hu
      obtain ⟨t, ht⟩ := hyp
      exact hik (tagPre_eq (w := []) ⟨t, by simp [ht]⟩)
    · rcases u' with _ | ⟨e, u''⟩
      · have hu2 : c :: y = tagL i := by simpa using hu
        rw [show tagL i = '[' :: ('[' :: (natDigits i ++ [']', ']'])) from rfl] at hu2
        injection hu2 with h1 h2
        rw [h2, show tagL k = '[' :: ('[' :: (natDigits k ++ [']', ']'])) from rfl] at hyp
        have h3 := (consPre hyp).2
        obtain ⟨d, ds, hnd⟩ := List.exists_cons_of_ne_nil (natDigits_ne_nil i)
        rw [hnd] at h3
        have h4 := (consPre h3).1
        exact isDigitCh_ne_lbrack (natDigits_all_digit i d (by simp [hnd])) h4
      · have hu2 : c :: e :: (u'' ++ y) = tagL i := by
          rw [← hu]
          simp
        rw [show tagL i = '[' :: '[' :: (natDigits i ++ [']', ']']) from rfl] at hu2
        injection hu2 with h1 h2
        injection h2 with h3 h4
        obtain ⟨y0, y1, hy01⟩ := List.exists_cons_of_ne_nil hy
        have hy0mem : y0 ∈ natDigits i ++ [']', ']'] := by
          rw [← h4, hy01]
          simp
        have hy0 : y0 = '[' := by
          rw [hy01] at hyp
          rw [show tagL k = '[' :: ('[' :: (natDigits k ++ [']', ']'])) from rfl] at hyp
          exact (consPre hyp).1
        rcases List.mem_append.1 hy0mem with h | h
        · exact isDigitCh_ne_lbrack (natDigits_all_digit i y0 h) hy0
        · simp [hy0] at h

theorem crossFree_pat_tagSeg {p a w : Str} (hp : ∀ c ∈ p, isTagCh c = false)
    (ha : ∀ c ∈ a, isTagCh c = true) : CrossFree p a w := by
  intro y hy hys hpre
  rcases preAppendCases hpre with ⟨hle, _⟩ | ⟨hyp, _⟩
  · exact hle
  · exfalso
    obtain ⟨y0, y1, hy01⟩ := List.exists_cons_of_ne_nil hy
    subst hy01
    have hmem : y0 ∈ a := suffix_head_mem hys
    obtain ⟨t, ht⟩ := hyp
    have hp0 : y0 ∈ p := by
      rw [← ht]
      simp
    have h1 := hp y0 hp0
    rw [ha y0 hmem] at h1
    exact Bool.noConfusion h1

theorem crossFree_pat_tagTail {p a w : Str} (hp : ∀ c ∈ p, isTagCh c = false)
    (hw : w = [] ∨ ∃ c w', w = c :: w' ∧ isTagCh c = true) : CrossFree p a w := by
  intro y hy _ hpre
  rcases preAppendCases hpre with ⟨hle, _⟩ | ⟨_, hdrop⟩
  · exact hle
  · by_cases hge : p.length ≤ y.length
    · exact hge
    · exfalso
      have hzne : p.drop y.length ≠ [] := by
        rw [ne_eq, List.drop_eq_nil_iff]
        omega
      obtain ⟨c0, z', hcz⟩ := List.exists_cons_of_ne_nil hzne
      rw [hcz] at hdrop
      have hc0 : isTagCh c0 = false := by
        apply hp
        apply List.mem_of_mem_drop (n := y.length)
        rw [hcz]
        simp
      rcases hw with hw | ⟨c, w', hw, hc⟩
      · subst hw
        obtain ⟨t, ht⟩ := hdrop
        simp at ht
      · subst hw
        have := (consPre hdrop).1
        rw [this, hc] at hc0
        exact Bool.noConfusion hc0.symm

theorem clean_no_occ {p u : Str} (hpn : p ≠ []) (hp : ∀ c ∈ p, isTagCh c = false)
    (hu : ∀ c ∈ u, isTagCh c = true) : ¬ p <:+: u := by
  intro h
  obtain ⟨p0, p1, hp01⟩ := List.exists_cons_of_ne_nil hpn
  have hmem : p0 ∈ u := h.subset (by simp [hp01])
  have h1 := hp p0 (by simp [hp01])
  rw [hu p0 hmem] at h1
  exact Bool.noConfusion h1

theorem tag_not_infix_clean {k : ℕ} {s : Str} (hs : ∀ c ∈ s, isTagCh c = false) :
    ¬ tagL k <:+: s := by
  intro h
  have hmem : '[' ∈ s := h.subset (by simp [tagL])
  have := hs '[' hmem
  simp [isTagCh] at this

/-! ## Guarded strings as chunk/marker alternations

A guarded string is a leading text chunk followed by marker/chunk
segments; a marker is either an inserted tag `[[i]]` or an already
restored span.  Flattening recovers the literal string; substituting
every tag by its span recovers the original text. -/

inductive Mark where
  | mtag (i : ℕ)
  | mspn (s : Str)

def flatM : Mark → Str
  | .mtag i => tagL i
  | .mspn s => s

structure GStr where
  head : Str
  segs : List (Mark × Str)

def flatSegs (segs : List (Mark × Str)) : Str :=
  segs.flatMap fun ms => flatM ms.1 ++ ms.2

def flattenG (g : GStr) : Str := g.head ++ flatSegs g.segs

theorem flattenG_nil (h : Str) : flattenG ⟨h, []⟩ = h := by
  simp [flattenG, flatSegs]

theorem flattenG_cons (h : Str) (m : Mark) (s : Str) (rest : List (Mark × Str)) :
    flattenG ⟨h, (m, s) :: rest⟩ = h ++ (flatM m ++ flattenG ⟨s, rest⟩) := by
  simp [flattenG, flatSegs, List.flatMap_cons, List.append_assoc]

/-- Substitute spans for tags (tag `i` stands for the `i`-th span). -/
def subM (sp : List Str) : Mark → Str
  | .mtag i => sp.getD i []
  | .mspn t => t

def subSegs (sp : List Str) (segs : List (Mark × Str)) : Str :=
  segs.flatMap fun ms => subM sp ms.1 ++ ms.2

def flattenS (sp : List Str) (g : GStr) : Str := g.head ++ subSegs sp g.segs

theorem flattenS_nil (sp : List Str) (h : Str) : flattenS sp ⟨h, []⟩ = h := by
  simp [flattenS, subSegs]

theorem flattenS_cons (sp : List Str) (h : Str) (m : Mark) (s : Str)
    (rest : List (Mark × Str)) :
    flattenS sp ⟨h, (m, s) :: rest⟩ = h ++ (subM sp m ++ flattenS sp ⟨s, rest⟩) := by
  simp [flattenS, subSegs, List.flatMap_cons, List.append_assoc]

theorem infixAppL {u b : Str} (a : Str) (h : u <:+: b) : u <:+: a ++ b := by
  obtain ⟨x, y, hxy⟩ := h
  exact ⟨a ++ x, y, by rw [← hxy]; simp⟩

/-! ### Replacing one span inside one chunk -/

def chunkRepG (p : Str) (j : ℕ) : Str → GStr
  | [] => ⟨[], []⟩
  | c :: s =>
    if h : p ≠ [] ∧ p <+: (c :: s) then
      let g := chunkRepG p j ((c :: s).drop p.length)
      ⟨[], (Mark.mtag j, g.head) :: g.segs⟩
    else
      let g := chunkRepG p j s
      ⟨c :: g.head, g.segs⟩
termination_by s => s.length
decreasing_by
  · have h1 : 1 ≤ p.length := by
      cases p with
      | nil => exact absurd rfl h.1
      | cons d q => simp
    simp only [List.length_drop, List.length_cons]
    omega
  · simp

theorem chunkRepG_flatten {p : Str} (j : ℕ) (hp : p ≠ []) :
    ∀ (n : ℕ) (s : Str), s.length ≤ n →
      flattenG (chunkRepG p j s) = replaceAll p (tagL j) s := by
  intro n
  induction n with
  | zero =>
    intro s hs
    have : s = [] := List.length_eq_zero.1 (Nat.le_zero.1 hs)
    subst this
    rw [chunkRepG, replaceAll_nil, flattenG_nil]
  | succ n ih =>
    intro s hs
    cases s with
    | nil => rw [chunkRepG, replaceAll_nil, flattenG_nil]
    | cons c s' =>
      by_cases hm : p ≠ [] ∧ p <+: (c :: s')
      · rw [chunkRepG, dif_pos hm, replaceAll_match (tagL j) hm.1 hm.2]
        have hlen : ((c :: s').drop p.length).length ≤ n := by
          have h1 : 1 ≤ p.length := List.length_pos.2 hm.1
          simp only [List.length_drop, List.length_cons] at *
          omega
        rw [flattenG_cons]
        have heta : flattenG ⟨(chunkRepG p j ((c :: s').drop p.length)).head,
            (chunkRepG p j ((c :: s').drop p.length)).segs⟩ =
            flattenG (chunkRepG p j ((c :: s').drop p.length)) := rfl
        rw [heta, ih _ hlen]
        rfl
      · rw [chunkRepG, dif_neg hm, replaceAll_step (tagL j) hm]
        have hlen : s'.length ≤ n := by
          simp at hs
          omega
        have hflat : flattenG ⟨c :: (chunkRepG p j s').head, (chunkRepG p j s').segs⟩ =
            c :: flattenG (chunkRepG p j s') := by
          simp [flattenG]
        rw [hflat, ih _ hlen]

theorem chunkRepG_marks {p : Str} (j : ℕ) :
    ∀ (n : ℕ) (s : Str), s.length ≤ n →
      ∀ ms ∈ (chunkRepG p j s).segs, ms.1 = Mark.mtag j := by
  intro n
  induction n with
  | zero =>
    intro s hs
    have : s = [] := List.length_eq_zero.1 (Nat.le_zero.1 hs)
    subst this
    rw [chunkRepG]
    simp
  | succ n ih =>
    intro s hs
    cases s with
    | nil =>
      rw [chunkRepG]
      simp
    | cons c s' =>
      by_cases hm : p ≠ [] ∧ p <+: (c :: s')
      · rw [chunkRepG, dif_pos hm]
        intro ms hms
        rcases List.mem_cons.1 hms with h | h
        · rw [h]
        · have hlen : ((c :: s').drop p.length).length ≤ n := by
            have h1 : 1 ≤ p.length := List.length_pos.2 hm.1
            simp only [List.length_drop, List.length_cons] at *
            omega
          exact ih _ hlen ms h
      · rw [chunkRepG, dif_neg hm]
        intro ms hms
        have hlen : s'.length ≤ n := by
          simp at hs
          omega
        exact ih _ hlen ms hms

theorem chunkRepG_chunks {p : Str} (j : ℕ) :
    ∀ (n : ℕ) (s : Str), s.length ≤ n →
      (chunkRepG p j s).head <+: s ∧ ∀ ms ∈ (chunkRepG p j s).segs, ms.2 <:+: s := by
  intro n
  induction n with
  | zero =>
    intro s hs
    have : s = [] := List.length_eq_zero.1 (Nat.le_zero.1 hs)
    subst this
    rw [chunkRepG]
    exact ⟨⟨[], rfl⟩, by simp⟩
  | succ n ih =>
    intro s hs
    cases s with
    | nil =>
      rw [chunkRepG]
      exact ⟨⟨[], rfl⟩, by simp⟩
    | cons c s' =>
      by_cases hm : p ≠ [] ∧ p <+: (c :: s')
      · rw [chunkRepG, dif_pos hm]
        obtain ⟨t, ht⟩ := hm.2
        have hdrop : (c :: s').drop p.length = t := by
          rw [← ht, List.drop_left p t]
        have hlen : ((c :: s').drop p.length).length ≤ n := by
          have h1 : 1 ≤ p.length := List.length_pos.2 hm.1
          simp only [List.length_drop, List.length_cons] at *
          omega
        have hrec := ih _ hlen
        constructor
        · exact ⟨c :: s', rfl⟩
        · intro ms hms
          have htinf : ∀ u : Str, u <:+: (c :: s').drop p.length → u <:+: c :: s' := by
            intro u hu
            rw [hdrop] at hu
            rw [← ht]
            exact infixAppL p hu
          rcases List.mem_cons.1 hms with h | h
          · rw [h]
            exact htinf _ (infixOfPre hrec.1)
          · exact htinf _ (hrec.2 ms h)
      · rw [chunkRepG, dif_neg hm]
        have hlen : s'.length ≤ n := by
          simp at hs
          omega
        have hrec := ih _ hlen
        constructor
        · obtain ⟨t, ht⟩ := hrec.1
          exact ⟨t, by simp [ht]⟩
        · intro ms hms
          exact infixCons c (hrec.2 ms hms)

theorem chunkRepG_flattenS {p : Str} {j : ℕ} (sp : List Str) (hj : sp.getD j [] = p)
    (hp : p ≠ []) :
    ∀ (n : ℕ) (s : Str), s.length ≤ n → flattenS sp (chunkRepG p j s) = s := by
  intro n
  induction n with
  | zero =>
    intro s hs
    have : s = [] := List.length_eq_zero.1 (Nat.le_zero.1 hs)
    subst this
    rw [chunkRepG, flattenS_nil]
  | succ n ih =>
    intro s hs
    cases s with
    | nil => rw [chunkRepG, flattenS_nil]
    | cons c s' =>
      by_cases hm : p ≠ [] ∧ p <+: (c :: s')
      · rw [chunkRepG, dif_pos hm]
        obtain ⟨t, ht⟩ := hm.2
        have hdrop : (c :: s').drop p.length = t := by
          rw [← ht, List.drop_left p t]
        have hlen : ((c :: s').drop p.length).length ≤ n := by
          have h1 : 1 ≤ p.length := List.length_pos.2 hm.1
          simp only [List.length_drop, List.length_cons] at *
          omega
        have hrec := ih _ hlen
        rw [flattenS_cons]
        have heta : flattenS sp ⟨(chunkRepG p j ((c :: s').drop p.length)).head,
            (chunkRepG p j ((c :: s').drop p.length)).segs⟩ =
            flattenS sp (chunkRepG p j ((c :: s').drop p.length)) := rfl
        rw [heta, hrec, hdrop]
        rw [show subM sp (Mark.mtag j) = p from hj, List.nil_append, ← ht]
      · rw [chunkRepG, dif_neg hm]
        have hlen : s'.length ≤ n := by
          simp at hs
          omega
        have hrec := ih _ hlen
        have heta : flattenS sp ⟨c :: (chunkRepG p j s').head, (chunkRepG p j s').segs⟩ =
            c :: flattenS sp (chunkRepG p j s') := by
          simp [flattenS]
        rw [heta, hrec]

theorem crossFree_tagPat_clean {k : ℕ} {a w : Str} (ha : ∀ c ∈ a, isTagCh c = false) :
    CrossFree (tagL k) a w := by
  intro y hy hys hp
  rcases preAppendCases hp with ⟨hle, _⟩ | ⟨hyp, _⟩
  · exact hle
  · exfalso
    obtain ⟨y0, y1, hy01⟩ := List.exists_cons_of_ne_nil hy
    subst hy01
    have hmem : y0 ∈ a := suffix_head_mem hys
    have hy0 : y0 = '[' := by
      rw [show tagL k = '[' :: ('[' :: (natDigits k ++ [']', ']'])) from rfl] at hyp
      exact (consPre hyp).1
    have := ha y0 hmem
    rw [hy0] at this
    simp [isTagCh] at this

/-! ### One protection pass and one restoration pass on a guarded string -/

def protG (p : Str) (j : ℕ) (g : GStr) : GStr :=
  ⟨(chunkRepG p j g.head).head,
    (chunkRepG p j g.head).segs ++ g.segs.flatMap fun ms =>
      (ms.1, (chunkRepG p j ms.2).head) :: (chunkRepG p j ms.2).segs⟩

def restM (k : ℕ) (r : Str) : Mark → Mark
  | .mtag i => if i = k then .mspn r else .mtag i
  | .mspn t => .mspn t

def restOneG (k : ℕ) (r : Str) (g : GStr) : GStr :=
  ⟨g.head, g.segs.map fun ms => (restM k r ms.1, ms.2)⟩

/-- Every marker is a tag (protection phase invariant). -/
def MarksTagged (g : GStr) : Prop := ∀ ms ∈ g.segs, ∃ i, ms.1 = Mark.mtag i

/-- Every tag index comes from the processed list. -/
def MarksIn (S : List ℕ) (g : GStr) : Prop :=
  ∀ ms ∈ g.segs, ∀ i, ms.1 = Mark.mtag i → i ∈ S

/-- Every chunk is an infix of the original text. -/
def ChunksIn (text : Str) (g : GStr) : Prop :=
  g.head <:+: text ∧ ∀ ms ∈ g.segs, ms.2 <:+: text

/-- Every restored span is nonempty and free of tag characters. -/
def SpansClean (g : GStr) : Prop :=
  ∀ ms ∈ g.segs, ∀ t, ms.1 = Mark.mspn t → t ≠ [] ∧ ∀ c ∈ t, isTagCh c = false

theorem flatSegs_append (a b : List (Mark × Str)) :
    flatSegs (a ++ b) = flatSegs a ++ flatSegs b := by
  simp [flatSegs, List.flatMap_append]

/-- One protection pass on the pieces realizes `replaceAll` on the
flattening. -/
theorem protG_flatten {p : Str} {j : ℕ} (hp : p ≠ []) (hcl : ∀ c ∈ p, isTagCh c = false) :
    ∀ (segs : List (Mark × Str)) (h : Str), (∀ ms ∈ segs, ∃ i, ms.1 = Mark.mtag i) →
      replaceAll p (tagL j) (flattenG ⟨h, segs⟩) = flattenG (protG p j ⟨h, segs⟩) := by
  intro segs
  induction segs with
  | nil =>
    intro h _
    rw [flattenG_nil]
    have h1 : flattenG (protG p j ⟨h, []⟩) = flattenG (chunkRepG p j h) := by
      simp [protG, flattenG]
    rw [h1, chunkRepG_flatten j hp h.length h le_rfl]
  | cons mss rest ih =>
    intro h hm
    obtain ⟨m, s⟩ := mss
    obtain ⟨i, hi⟩ := hm (m, s) (by simp)
    simp only at hi
    subst hi
    rw [flattenG_cons]
    have hw1 : CrossFree p h (flatM (Mark.mtag i) ++ flattenG ⟨s, rest⟩) := by
      apply crossFree_pat_tagTail hcl
      right
      exact ⟨'[', '[' :: (natDigits i ++ [']', ']']) ++ flattenG ⟨s, rest⟩, rfl, rfl⟩
    rw [replaceAll_append (tagL j) h.length h le_rfl _ hw1]
    have hw2 : replaceAll p (tagL j) (flatM (Mark.mtag i) ++ flattenG ⟨s, rest⟩) =
        flatM (Mark.mtag i) ++ replaceAll p (tagL j) (flattenG ⟨s, rest⟩) := by
      apply replaceAll_skip
      · exact crossFree_pat_tagSeg hcl (fun c hc => tagL_all_tagCh i c hc)
      · exact clean_no_occ hp hcl (fun c hc => tagL_all_tagCh i c hc)
    rw [hw2, ih s (fun ms hms => hm ms (by simp [hms])),
      ← chunkRepG_flatten j hp h.length h le_rfl]
    simp only [protG, flattenG, flatSegs, List.flatMap_append, List.flatMap_cons, flatM,
      List.append_assoc]

/-- One restoration pass on the pieces realizes `replaceAll` of one tag
on the flattening. -/
theorem restOneG_flatten {k : ℕ} {r : Str} :
    ∀ (segs : List (Mark × Str)) (h : Str),
      (¬ tagL k <:+: h) →
      (∀ ms ∈ segs, ¬ tagL k <:+: ms.2) →
      (∀ ms ∈ segs, ∀ t, ms.1 = Mark.mspn t → t ≠ [] ∧ ∀ c ∈ t, isTagCh c = false) →
      replaceAll (tagL k) r (flattenG ⟨h, segs⟩) = flattenG (restOneG k r ⟨h, segs⟩) := by
  intro segs
  induction segs with
  | nil =>
    intro h hh _ _
    rw [flattenG_nil, replaceAll_no_occ r hh]
    simp [restOneG, flattenG, flatSegs]
  | cons mss rest ih =>
    intro h hh hch hsp
    obtain ⟨m, s⟩ := mss
    rw [flattenG_cons]
    have hgt : GoodTail (flatM m ++ flattenG ⟨s, rest⟩) := by
      cases m with
      | mtag i =>
        right; left
        exact ⟨natDigits i ++ [']', ']'] ++ flattenG ⟨s, rest⟩, rfl⟩
      | mspn t =>
        obtain ⟨hne, hclean⟩ := hsp (Mark.mspn t, s) (by simp) t rfl
        obtain ⟨c0, t', ht'⟩ := List.exists_cons_of_ne_nil hne
        right; right
        refine ⟨c0, t' ++ flattenG ⟨s, rest⟩, ?_, ?_⟩
        · simp [flatM, ht']
        · exact hclean c0 (by simp [ht'])
    rw [replaceAll_skip r (crossFree_tag hgt) hh]
    have hihyp := ih s (hch (m, s) (by simp))
      (fun ms hms => hch ms (by simp [hms]))
      (fun ms hms => hsp ms (by simp [hms]))
    have hrhs : flattenG (restOneG k r ⟨h, (m, s) :: rest⟩) =
        h ++ (flatM (restM k r m) ++ flattenG (restOneG k r ⟨s, rest⟩)) := by
      rw [show restOneG k r ⟨h, (m, s) :: rest⟩ =
        ⟨h, (restM k r m, s) :: (rest.map fun ms => (restM k r ms.1, ms.2))⟩ from rfl,
        flattenG_cons]
      rfl
    rw [hrhs]
    cases m with
    | mtag i =>
      by_cases hik : i = k
      · subst hik
        rw [show flatM (Mark.mtag i) = tagL i from rfl,
          replaceAll_head r _ (tagL_ne_nil i), hihyp,
          show restM i r (Mark.mtag i) = Mark.mspn r from by simp [restM],
          show flatM (Mark.mspn r) = r from rfl]
      · rw [show flatM (Mark.mtag i) = tagL i from rfl,
          replaceAll_skip r (crossFree_tag_after hik _)
            (tag_not_infix_tag (fun he => hik he.symm)),
          hihyp,
          show restM k r (Mark.mtag i) = Mark.mtag i from by simp [restM, hik],
          show flatM (Mark.mtag i) = tagL i from rfl]
    | mspn t =>
      obtain ⟨hne, hclean⟩ := hsp (Mark.mspn t, s) (by simp) t rfl
      rw [show flatM (Mark.mspn t) = t from rfl,
        replaceAll_skip r (crossFree_tagPat_clean hclean) (tag_not_infix_clean hclean),
        hihyp,
        show restM k r (Mark.mspn t) = Mark.mspn t from rfl,
        show flatM (Mark.mspn t) = t from rfl]

/-! ### Invariant preservation -/

theorem protG_tagged {p : Str} {j : ℕ} {g : GStr} (hg : MarksTagged g) :
    MarksTagged (protG p j g) := by
  intro ms hms
  simp only [protG, List.mem_append, List.mem_flatMap] at hms
  rcases hms with h | ⟨ms', hms', h⟩
  · exact ⟨j, chunkRepG_marks j g.head.length g.head le_rfl ms h⟩
  · rcases List.mem_cons.1 h with h | h
    · obtain ⟨i, hi⟩ := hg ms' hms'
      subst h
      exact ⟨i, hi⟩
    · exact ⟨j, chunkRepG_marks j ms'.2.length ms'.2 le_rfl ms h⟩

theorem protG_marksIn {p : Str} {j : ℕ} {S : List ℕ} {g : GStr} (hj : j ∈ S)
    (hg : MarksIn S g) : MarksIn S (protG p j g) := by
  intro ms hms i hi
  simp only [protG, List.mem_append, List.mem_flatMap] at hms
  rcases hms with h | ⟨ms', hms', h⟩
  · have h2 := chunkRepG_marks j g.head.length g.head le_rfl ms h
    rw [h2] at hi
    injection hi with h3
    subst h3
    exact hj
  · rcases List.mem_cons.1 h with h | h
    · subst h
      exact hg ms' hms' i hi
    · have h2 := chunkRepG_marks j ms'.2.length ms'.2 le_rfl ms h
      rw [h2] at hi
      injection hi with h3
      subst h3
      exact hj

theorem protG_chunks {p : Str} {j : ℕ} {text : Str} {g : GStr} (hg : ChunksIn text g) :
    ChunksIn text (protG p j g) := by
  obtain ⟨hh, hsegs⟩ := hg
  constructor
  · exact (infixOfPre (chunkRepG_chunks j g.head.length g.head le_rfl).1).trans hh
  · intro ms hms
    simp only [protG, List.mem_append, List.mem_flatMap] at hms
    rcases hms with h | ⟨ms', hms', h⟩
    · exact ((chunkRepG_chunks j g.head.length g.head le_rfl).2 ms h).trans hh
    · rcases List.mem_cons.1 h with h | h
      · subst h
        exact (infixOfPre (chunkRepG_chunks j ms'.2.length ms'.2 le_rfl).1).trans
          (hsegs ms' hms')
      · exact ((chunkRepG_chunks j ms'.2.length ms'.2 le_rfl).2 ms h).trans (hsegs ms' hms')

theorem restOneG_chunks {k : ℕ} {r text : Str} {g : GStr} (hg : ChunksIn text g) :
    ChunksIn text (restOneG k r g) := by
  obtain ⟨hh, hsegs⟩ := hg
  refine ⟨hh, ?_⟩
  intro ms hms
  simp only [restOneG, List.mem_map] at hms
  obtain ⟨ms', hms', rfl⟩ := hms
  exact hsegs ms' hms'

theorem restOneG_spansClean {k : ℕ} {r : Str} {g : GStr}
    (hr : r ≠ [] ∧ ∀ c ∈ r, isTagCh c = false) (hg : SpansClean g) :
    SpansClean (restOneG k r g) := by
  intro ms hms t ht
  simp only [restOneG, List.mem_map] at hms
  obtain ⟨ms', hms', rfl⟩ := hms
  simp only at ht
  cases hm' : ms'.1 with
  | mtag i =>
    rw [hm'] at ht
    simp only [restM] at ht
    by_cases hik : i = k
    · rw [if_pos hik] at ht
      injection ht with h2
      subst h2
      exact hr
    · rw [if_neg hik] at ht
      exact Mark.noConfusion ht
  | mspn t' =>
    rw [hm'] at ht
    simp only [restM] at ht
    injection ht with h2
    subst h2
    exact hg ms' hms' t' hm'

theorem marksTagged_spansClean {g : GStr} (hg : MarksTagged g) : SpansClean g := by
  intro ms hms t ht
  obtain ⟨i, hi⟩ := hg ms hms
  rw [hi] at ht
  exact Mark.noConfusion ht

/-! ### Iterating the passes -/

def protFoldG (l : List (ℕ × Str)) (g : GStr) : GStr :=
  l.foldl (fun g ip => protG ip.2 ip.1 g) g

def restFoldG (l : List (ℕ × Str)) (g : GStr) : GStr :=
  l.foldl (fun g ip => restOneG ip.1 ip.2 g) g

theorem protFoldG_flatten :
    ∀ (l : List (ℕ × Str)) (g : GStr),
      (∀ ip ∈ l, ip.2 ≠ [] ∧ ∀ c ∈ ip.2, isTagCh c = false) →
      MarksTagged g →
      l.foldl (fun acc ip => replaceAll ip.2 (tagL ip.1) acc) (flattenG g) =
        flattenG (protFoldG l g) := by
  intro l
  induction l with
  | nil => intro g _ _; rfl
  | cons ip l ih =>
    intro g hcl hm
    obtain ⟨j, p⟩ := ip
    have h1 : replaceAll p (tagL j) (flattenG g) = flattenG (protG p j g) :=
      protG_flatten (hcl (j, p) (by simp)).1 (hcl (j, p) (by simp)).2 g.segs g.head hm
    rw [List.foldl_cons]
    simp only at h1 ⊢
    rw [h1]
    exact ih (protG p j g) (fun ip h => hcl ip (by simp [h])) (protG_tagged hm)

theorem protFoldG_tagged :
    ∀ (l : List (ℕ × Str)) (g : GStr), MarksTagged g → MarksTagged (protFoldG l g) := by
  intro l
  induction l with
  | nil => intro g hg; exact hg
  | cons ip l ih => intro g hg; exact ih _ (protG_tagged hg)

theorem protFoldG_marksIn {S : List ℕ} :
    ∀ (l : List (ℕ × Str)) (g : GStr), (∀ ip ∈ l, ip.1 ∈ S) → MarksIn S g →
      MarksIn S (protFoldG l g) := by
  intro l
  induction l with
  | nil => intro g _ hg; exact hg
  | cons ip l ih =>
    intro g hS hg
    exact ih _ (fun ip' h => hS ip' (by simp [h]))
      (protG_marksIn (hS ip (by simp)) hg)

theorem protFoldG_chunks {text : Str} :
    ∀ (l : List (ℕ × Str)) (g : GStr), ChunksIn text g → ChunksIn text (protFoldG l g) := by
  intro l
  induction l with
  | nil => intro g hg; exact hg
  | cons ip l ih => intro g hg; exact ih _ (protG_chunks hg)

theorem restFoldG_flatten {text : Str} :
    ∀ (l : List (ℕ × Str)) (g : GStr),
      ChunksIn text g → SpansClean g →
      (∀ ip ∈ l, ¬ tagL ip.1 <:+: text) →
      (∀ ip ∈ l, ip.2 ≠ [] ∧ ∀ c ∈ ip.2, isTagCh c = false) →
      l.foldl (fun acc ip => replaceAll (tagL ip.1) ip.2 acc) (flattenG g) =
        flattenG (restFoldG l g) := by
  intro l
  induction l with
  | nil => intro g _ _ _ _; rfl
  | cons ip l ih =>
    intro g hch hsp htext hcl
    obtain ⟨k, r⟩ := ip
    have hnih : ¬ tagL k <:+: g.head := fun hinf => htext (k, r) (by simp) (hinf.trans hch.1)
    have hnis : ∀ ms ∈ g.segs, ¬ tagL k <:+: ms.2 :=
      fun ms hms hinf => htext (k, r) (by simp) (hinf.trans (hch.2 ms hms))
    have h1 : replaceAll (tagL k) r (flattenG g) = flattenG (restOneG k r g) :=
      restOneG_flatten g.segs g.head hnih hnis hsp
    rw [List.foldl_cons]
    simp only at h1 ⊢
    rw [h1]
    exact ih (restOneG k r g) (restOneG_chunks hch)
      (restOneG_spansClean (hcl (k, r) (by simp)) hsp)
      (fun ip h => htext ip (by simp [h]))
      (fun ip h => hcl ip (by simp [h]))

theorem restFoldG_noTags :
    ∀ (l : List (ℕ × Str)) (g : GStr), MarksIn (l.map Prod.fst) g →
      ∀ ms ∈ (restFoldG l g).segs, ∀ i, ms.1 ≠ Mark.mtag i := by
  intro l
  induction l with
  | nil =>
    intro g hg ms hms i hi
    have := hg ms hms i hi
    simp at this
  | cons ip l ih =>
    intro g hg
    obtain ⟨k, r⟩ := ip
    apply ih (restOneG k r g)
    intro ms hms i hi
    simp only [restOneG, List.mem_map] at hms
    obtain ⟨ms', hms', rfl⟩ := hms
    simp only at hi
    cases hm' : ms'.1 with
    | mtag i' =>
      rw [hm'] at hi
      simp only [restM] at hi
      by_cases hik : i' = k
      · rw [if_pos hik] at hi
        exact Mark.noConfusion hi
      · rw [if_neg hik] at hi
        injection hi with h2
        subst h2
        have hmem := hg ms' hms' i' hm'
        rw [List.map_cons] at hmem
        rcases List.mem_cons.1 hmem with h | h
        · exact absurd h hik
        · exact h
    | mspn t' =>
      rw [hm'] at hi
      simp only [restM] at hi
      exact Mark.noConfusion hi

/-! ### Substituted flattening is preserved by both passes -/

theorem subSegs_append (sp : List Str) (a b : List (Mark × Str)) :
    subSegs sp (a ++ b) = subSegs sp a ++ subSegs sp b := by
  simp [subSegs, List.flatMap_append]

theorem protG_flattenS {p : Str} {j : ℕ} {sp : List Str} {g : GStr}
    (hj : sp.getD j [] = p) (hp : p ≠ []) :
    flattenS sp (protG p j g) = flattenS sp g := by
  have h0 : flattenS sp (chunkRepG p j g.head) = g.head :=
    chunkRepG_flattenS sp hj hp g.head.length g.head le_rfl
  have hseg : ∀ segs : List (Mark × Str),
      subSegs sp (segs.flatMap fun ms =>
        (ms.1, (chunkRepG p j ms.2).head) :: (chunkRepG p j ms.2).segs) =
        subSegs sp segs := by
    intro segs
    induction segs with
    | nil => rfl
    | cons ms rest ihs =>
      rw [List.flatMap_cons, subSegs_append, ihs]
      have h2 : subSegs sp ((ms.1, (chunkRepG p j ms.2).head) :: (chunkRepG p j ms.2).segs) =
          subM sp ms.1 ++ flattenS sp (chunkRepG p j ms.2) := by
        simp [subSegs, flattenS, List.flatMap_cons, List.append_assoc]
      rw [h2, chunkRepG_flattenS sp hj hp ms.2.length ms.2 le_rfl]
      simp [subSegs, List.flatMap_cons, List.append_assoc]
  show (chunkRepG p j g.head).head ++ subSegs sp ((chunkRepG p j g.head).segs ++ _) =
    flattenS sp g
  rw [subSegs_append, ← List.append_assoc]
  rw [show (chunkRepG p j g.head).head ++ subSegs sp (chunkRepG p j g.head).segs =
    flattenS sp (chunkRepG p j g.head) from rfl]
  rw [h0, hseg]
  rfl

theorem restOneG_flattenS {k : ℕ} {r : Str} {sp : List Str} {g : GStr}
    (hk : sp.getD k [] = r) :
    flattenS sp (restOneG k r g) = flattenS sp g := by
  have hseg : ∀ segs : List (Mark × Str),
      subSegs sp (segs.map fun ms => (restM k r ms.1, ms.2)) = subSegs sp segs := by
    intro segs
    induction segs with
    | nil => rfl
    | cons ms rest ihs =>
      rw [List.map_cons]
      have h2 : subM sp (restM k r ms.1) = subM sp ms.1 := by
        cases hm : ms.1 with
        | mtag i =>
          by_cases hik : i = k
          · subst hik
            simp only [restM, if_true]
            show r = sp.getD i []
            exact hk.symm
          · simp [restM, subM, hik]
        | mspn t => rfl
      show subM sp (restM k r ms.1) ++ ms.2 ++ subSegs sp (rest.map _) = subSegs sp (ms :: rest)
      rw [h2, ihs]
      simp [subSegs, List.flatMap_cons]
  show g.head ++ subSegs sp (g.segs.map _) = flattenS sp g
  rw [hseg]
  rfl

theorem protFoldG_flattenS {sp : List Str} :
    ∀ (l : List (ℕ × Str)) (g : GStr), (∀ ip ∈ l, sp.getD ip.1 [] = ip.2 ∧ ip.2 ≠ []) →
      flattenS sp (protFoldG l g) = flattenS sp g := by
  intro l
  induction l with
  | nil => intro g _; rfl
  | cons ip l ih =>
    intro g hl
    have h1 := ih (protG ip.2 ip.1 g) (fun ip' h => hl ip' (by simp [h]))
    have h2 := protG_flattenS (hl ip (by simp)).1 (hl ip (by simp)).2 (g := g)
    calc flattenS sp (protFoldG (ip :: l) g) = flattenS sp (protFoldG l (protG ip.2 ip.1 g)) := rfl
      _ = flattenS sp (protG ip.2 ip.1 g) := h1
      _ = flattenS sp g := h2

theorem restFoldG_flattenS {sp : List Str} :
    ∀ (l : List (ℕ × Str)) (g : GStr), (∀ ip ∈ l, sp.getD ip.1 [] = ip.2) →
      flattenS sp (restFoldG l g) = flattenS sp g := by
  intro l
  induction l with
  | nil => intro g _; rfl
  | cons ip l ih =>
    intro g hl
    have h1 := ih (restOneG ip.1 ip.2 g) (fun ip' h => hl ip' (by simp [h]))
    have h2 := restOneG_flattenS (hl ip (by simp)) (g := g)
    calc flattenS sp (restFoldG (ip :: l) g) = flattenS sp (restFoldG l (restOneG ip.1 ip.2 g)) := rfl
      _ = flattenS sp (restOneG ip.1 ip.2 g) := h1
      _ = flattenS sp g := h2

theorem flattenG_eq_flattenS (sp : List Str) :
    ∀ (g : GStr), (∀ ms ∈ g.segs, ∀ i, ms.1 ≠ Mark.mtag i) → flattenG g = flattenS sp g := by
  have haux : ∀ segs : List (Mark × Str), (∀ ms ∈ segs, ∀ i, ms.1 ≠ Mark.mtag i) →
      flatSegs segs = subSegs sp segs := by
    intro segs
    induction segs with
    | nil => intro _; rfl
    | cons ms rest ihs =>
      intro hh
      have h2 : flatM ms.1 = subM sp ms.1 := by
        cases hm : ms.1 with
        | mtag i => exact absurd hm (hh ms (by simp) i)
        | mspn t => rfl
      show flatM ms.1 ++ ms.2 ++ flatSegs rest = subM sp ms.1 ++ ms.2 ++ subSegs sp rest
      rw [h2, ihs (fun ms' hms' i => hh ms' (by simp [hms']) i)]
  intro g hg
  show g.head ++ flatSegs g.segs = g.head ++ subSegs sp g.segs
  rw [haux g.segs hg]

/-! ### The round trip -/

/-- The ordered tag map built by `_protect_entities`:
`tag_map = {p: f"[[{i}]]" for i, p in enumerate(protected)}`. -/
def protPairs (ps : List Str) : List (Str × Str) :=
  ps.enum.map fun ip => (ip.2, tagL ip.1)

/-- The substitution loop of `_protect_entities`:
`for orig, tag in tag_map.items(): temp = temp.replace(orig, tag)`. -/
def guardText (ps : List Str) (text : Str) : Str :=
  (protPairs ps).foldl (fun acc pt => replaceAll pt.1 pt.2 acc) text

/-- Model of `_restore_entities`:
`for orig, tag in tag_map.items(): text = text.replace(tag, orig)`. -/
def restoreText (pairs : List (Str × Str)) (t : Str) : Str :=
  pairs.foldl (fun acc pt => replaceAll pt.2 pt.1 acc) t

theorem enum_mem_snd {ps : List Str} {ip : ℕ × Str} (h : ip ∈ ps.enum) : ip.2 ∈ ps :=
  List.getElem?_mem (List.mem_enum_iff_getElem?.1 h)

theorem enum_fst_lt {ps : List Str} {ip : ℕ × Str} (h : ip ∈ ps.enum) : ip.1 < ps.length :=
  (List.getElem?_eq_some.1 (List.mem_enum_iff_getElem?.1 h)).1

theorem enum_getD {ps : List Str} {ip : ℕ × Str} (h : ip ∈ ps.enum) :
    ps.getD ip.1 [] = ip.2 := by
  rw [List.getD_eq_getElem?_getD, List.mem_enum_iff_getElem?.1 h]
  rfl

/-- Sequentially replacing every span by its tag and then every tag by
its span restores the original text, provided the spans contain no tag
characters and the text contains no literal tag. -/
theorem guard_restore_roundtrip (ps : List Str) (text : Str)
    (hcl : ∀ p ∈ ps, p ≠ [] ∧ ∀ c ∈ p, isTagCh c = false)
    (htext : ∀ i < ps.length, ¬ tagL i <:+: text) :
    restoreText (protPairs ps) (guardText ps text) = text := by
  have hg0m : MarksTagged (⟨text, []⟩ : GStr) := by intro ms hms; simp at hms
  have hlcl : ∀ ip ∈ ps.enum, ip.2 ≠ [] ∧ ∀ c ∈ ip.2, isTagCh c = false :=
    fun ip h => hcl ip.2 (enum_mem_snd h)
  have h1 : guardText ps text = flattenG (protFoldG ps.enum ⟨text, []⟩) := by
    rw [guardText, protPairs, List.foldl_map]
    have h2 := protFoldG_flatten ps.enum ⟨text, []⟩ hlcl hg0m
    rw [flattenG_nil] at h2
    exact h2
  have hGtag : MarksTagged (protFoldG ps.enum ⟨text, []⟩) :=
    protFoldG_tagged ps.enum _ hg0m
  have hGchunks : ChunksIn text (protFoldG ps.enum ⟨text, []⟩) := by
    apply protFoldG_chunks
    exact ⟨⟨[], [], by simp⟩, by simp⟩
  have hGspans : SpansClean (protFoldG ps.enum ⟨text, []⟩) :=
    marksTagged_spansClean hGtag
  have hGin : MarksIn (ps.enum.map Prod.fst) (protFoldG ps.enum ⟨text, []⟩) := by
    apply protFoldG_marksIn
    · exact fun ip h => List.mem_map_of_mem Prod.fst h
    · intro ms hms
      simp at hms
  have hltext : ∀ ip ∈ ps.enum, ¬ tagL ip.1 <:+: text :=
    fun ip h => htext ip.1 (enum_fst_lt h)
  have h2 : restoreText (protPairs ps) (flattenG (protFoldG ps.enum ⟨text, []⟩)) =
      flattenG (restFoldG ps.enum (protFoldG ps.enum ⟨text, []⟩)) := by
    rw [restoreText, protPairs, List.foldl_map]
    exact restFoldG_flatten ps.enum _ hGchunks hGspans hltext hlcl
  have h3 := restFoldG_noTags ps.enum _ hGin
  have hgetD : ∀ ip ∈ ps.enum, ps.getD ip.1 [] = ip.2 := fun ip h => enum_getD h
  have h4 : flattenS ps (restFoldG ps.enum (protFoldG ps.enum ⟨text, []⟩)) = text := by
    rw [restFoldG_flattenS ps.enum _ hgetD,
      protFoldG_flattenS ps.enum _ (fun ip h => ⟨hgetD ip h, (hlcl ip h).1⟩),
      flattenS_nil]
  rw [h1, h2, flattenG_eq_flattenS ps _ h3, h4]

/-! ## The `CAP_PAT` scanner

`re.findall(CAP_PAT, text)` with
`CAP_PAT = \b[A-ZÁÉÍÓÚÑÜ][a-záéíóúñü]{2,}(?:\s+[A-ZÁÉÍÓÚÑÜ][a-záéíóúñü]{2,})*`:
a leftmost scan that, at each word boundary followed by a capital,
greedily takes one capitalised word (capital + at least two lowercase)
and then as many complete `whitespace+ capitalised-word` groups as
possible, resuming after each match. -/

def matchWord (s : Str) : Option (Str × Str) :=
  match s with
  | [] => none
  | c :: rest =>
    if isCapCh c then
      let pr := rest.span isLowCh
      if 2 ≤ pr.1.length then some (c :: pr.1, pr.2) else none
    else none

def matchGroups : ℕ → Str → (Str × Str)
  | 0, s => ([], s)
  | fuel + 1, s =>
    let pr := s.span isPySpace
    if pr.1 ≠ [] then
      match matchWord pr.2 with
      | some (w, r) =>
        let gr := matchGroups fuel r
        (pr.1 ++ w ++ gr.1, gr.2)
      | none => ([], s)
    else ([], s)

def findCapsAux : ℕ → Bool → Str → List Str
  | 0, _, _ => []
  | _ + 1, _, [] => []
  | fuel + 1, prevWord, c :: s =>
    if ¬prevWord ∧ isCapCh c then
      match matchWord (c :: s) with
      | some (w, r) =>
        let gr := matchGroups r.length r
        (w ++ gr.1) :: findCapsAux fuel true gr.2
      | none => findCapsAux fuel (isWordCh c) s
    else
      findCapsAux fuel (isWordCh c) s

def findCaps (text : Str) : List Str := findCapsAux (text.length + 1) false text

/-- Characters a scanner token can contain. -/
def isTokCh (c : Char) : Bool := isPySpace c || isCapCh c || isLowCh c

theorem matchWord_eq {s w r : Str} (h : matchWord s = some (w, r)) :
    w ≠ [] ∧ ∀ c ∈ w, isTokCh c = true := by
  cases s with
  | nil => exact absurd h (by simp [matchWord])
  | cons c rest =>
    simp only [matchWord] at h
    by_cases hc : isCapCh c = true
    · rw [if_pos hc] at h
      by_cases h2 : 2 ≤ (rest.span isLowCh).1.length
      · rw [if_pos h2] at h
        injection h with h3
        injection h3 with h4 h5
        subst h4
        constructor
        · simp
        · intro x hx
          rcases List.mem_cons.1 hx with hx | hx
          · subst hx
            simp [isTokCh, hc]
          · rw [List.span_eq_take_drop] at hx
            have := List.mem_takeWhile_imp hx
            simp [isTokCh, this]
      · rw [if_neg h2] at h
        exact absurd h (by simp)
    · rw [if_neg hc] at h
      exact absurd h (by simp)

theorem matchGroups_eq :
    ∀ (fuel : ℕ) (s g r : Str), matchGroups fuel s = (g, r) →
      ∀ c ∈ g, isTokCh c = true := by
  intro fuel
  induction fuel with
  | zero =>
    intro s g r h
    simp only [matchGroups] at h
    injection h with h1 h2
    subst h1
    simp
  | succ fuel ih =>
    intro s g r h
    simp only [matchGroups] at h
    by_cases hsp : (s.span isPySpace).1 ≠ []
    · rw [if_pos hsp] at h
      cases hmw : matchWord (s.span isPySpace).2 with
      | none =>
        rw [hmw] at h
        injection h with h1 h2
        subst h1
        simp
      | some wr =>
        rw [hmw] at h
        obtain ⟨w, r'⟩ := wr
        injection h with h1 h2
        subst h1
        intro c hc
        rcases List.mem_append.1 hc with hc | hc
        · rcases List.mem_append.1 hc with hc | hc
          · rw [List.span_eq_take_drop] at hc
            have := List.mem_takeWhile_imp hc
            simp [isTokCh, this]
          · exact (matchWord_eq hmw).2 c hc
        · exact ih r' _ _ (by rw [Prod.mk.eta]) c hc
    · rw [if_neg hsp] at h
      injection h with h1 h2
      subst h1
      simp

theorem findCapsAux_mem :
    ∀ (fuel : ℕ) (pw : Bool) (s : Str), ∀ tok ∈ findCapsAux fuel pw s,
      tok ≠ [] ∧ ∀ c ∈ tok, isTokCh c = true := by
  intro fuel
  induction fuel with
  | zero =>
    intro pw s tok htok
    exact absurd htok (by simp [findCapsAux])
  | succ fuel ih =>
    intro pw s tok htok
    cases s with
    | nil => exact absurd htok (by simp [findCapsAux])
    | cons c s' =>
      simp only [findCapsAux] at htok
      by_cases hb : ¬pw = true ∧ isCapCh c = true
      · rw [if_pos hb] at htok
        cases hmw : matchWord (c :: s') with
        | none =>
          rw [hmw] at htok
          exact ih _ _ tok htok
        | some wr =>
          rw [hmw] at htok
          obtain ⟨w, r⟩ := wr
          rcases List.mem_cons.1 htok with h | h
          · subst h
            obtain ⟨hwne, hwch⟩ := matchWord_eq hmw
            constructor
            · intro hcontra
              rcases List.append_eq_nil.1 hcontra with ⟨h1, _⟩
              exact hwne h1
            · intro x hx
              rcases List.mem_append.1 hx with hx | hx
              · exact hwch x hx
              · exact matchGroups_eq r.length r _ _ (by rw [Prod.mk.eta]) x hx
          · exact ih _ _ tok h
      · rw [if_neg hb] at htok
        exact ih _ _ tok htok

theorem findCaps_mem {text : Str} : ∀ tok ∈ findCaps text,
    tok ≠ [] ∧ ∀ c ∈ tok, isTokCh c = true :=
  findCapsAux_mem (text.length + 1) false text

theorem tokCh_not_tag {c : Char} (h : isTokCh c = true) : isTagCh c = false := by
  have hall : (pySpaceChars ++ upperChars ++ lowerChars).all (fun c => !(isTagCh c)) = true := by
    decide
  simp only [isTokCh, Bool.or_eq_true] at h
  have hmem : c ∈ pySpaceChars ++ upperChars ++ lowerChars := by
    rcases h with (h | h) | h
    · exact List.mem_append.2 (Or.inl (List.mem_append.2 (Or.inl (of_decide_eq_true h))))
    · exact List.mem_append.2 (Or.inl (List.mem_append.2 (Or.inr (of_decide_eq_true h))))
    · exact List.mem_append.2 (Or.inr (of_decide_eq_true h))
  have := List.all_eq_true.1 hall c hmem
  simpa using this

/-! ## Candidate filtering and the protected list

Models lines 84–98 of the source: the stoplist check, the
sentence-initial single-word exclusion (`" " not in tok`,
`text.count(tok) == 1`, `re.match(rf"^{tok}\b", ...)` or
`re.search(rf"[.!?]\s+{tok}\b", ...)`), then
`sorted(set(protected), key=len, reverse=True)` (ties in the stable sort
fall back to first-occurrence order, one realization of Python's
unspecified set iteration order). -/

def countOccF (p : Str) : ℕ → Str → ℕ
  | 0, _ => 0
  | _ + 1, [] => 0
  | fuel + 1, c :: s =>
    if p ≠ [] ∧ p <+: (c :: s) then
      1 + countOccF p fuel ((c :: s).drop p.length)
    else
      countOccF p fuel s

def countOcc (p s : Str) : ℕ := countOccF p s.length s

/-- Word boundary directly after a token whose last character is a word
character: end of string or a non-word character. -/
def bAfter (rest : Str) : Bool :=
  match rest with
  | [] => true
  | c :: _ => ¬ isWordCh c

def startsTok (tok text : Str) : Bool :=
  decide (tok <+: text) && bAfter (text.drop tok.length)

def sentAfter (tok : Str) : ℕ → Str → Bool
  | 0, _ => false
  | _ + 1, [] => false
  | fuel + 1, c :: rest =>
    if c = '.' ∨ c = '!' ∨ c = '?' then
      (let pr := rest.span isPySpace
       decide (pr.1 ≠ []) && decide (tok <+: pr.2) && bAfter (pr.2.drop tok.length)) ||
        sentAfter tok fuel rest
    else
      sentAfter tok fuel rest

def stopTokens : List Str :=
  [['H', 'o', 'l', 'a'], ['T', 'e'], ['L', 'a'], ['E', 'l'], ['L', 'o', 's'],
    ['L', 'a', 's'], ['U', 'n'], ['U', 'n', 'a'], ['B', 'u', 'e', 'n', 'o', 's'],
    ['B', 'u', 'e', 'n', 'a', 's'], ['P', 'o', 'r'], ['S', 'i', 'n'], ['C', 'o', 'n']]

def regexCands (text : Str) : List Str :=
  (findCaps text).filter fun tok =>
    !(decide (tok ∈ stopTokens)) &&
    !(!(decide (' ' ∈ tok)) && decide (countOcc tok text = 1) &&
      (startsTok tok text || sentAfter tok text.length text))

def dedupF : List Str → List Str
  | [] => []
  | x :: xs => x :: (dedupF xs).filter fun y => decide (y ≠ x)

theorem dedupF_subset : ∀ (l : List Str), ∀ x ∈ dedupF l, x ∈ l := by
  intro l
  induction l with
  | nil => intro x hx; exact absurd hx (by simp [dedupF])
  | cons a l ih =>
    intro x hx
    simp only [dedupF] at hx
    rcases List.mem_cons.1 hx with h | h
    · simp [h]
    · exact List.mem_cons.2 (Or.inr (ih x (List.mem_filter.1 h).1))

/-- Descending length, the sort key `key=len, reverse=True`. -/
def lenGE (a b : Str) : Prop := b.length ≤ a.length

instance : DecidableRel lenGE := fun a b => Nat.decLe b.length a.length

instance : IsTotal Str lenGE := ⟨fun a b => le_total b.length a.length⟩

instance : IsTrans Str lenGE := ⟨fun a b c h1 h2 => le_trans h2 h1⟩

/-- The de-duplicated, length-sorted candidate list of
`_protect_entities`; `ner` is the entity list contributed by the
(optional) spaCy branch, empty when no model is loaded. -/
def protectedL (ner : List Str) (text : Str) : List Str :=
  List.insertionSort lenGE (dedupF (ner ++ regexCands text))

/-- Model of `_protect_entities(text, lang)`, returning the guarded text and the
ordered tag map. -/
def protectEntities (ner : List Str) (text : Str) : Str × List (Str × Str) :=
  (guardText (protectedL ner text) text, protPairs (protectedL ner text))

/-- Model of `_restore_entities(text, tag_map)`. -/
def restoreEntities (pairs : List (Str × Str)) (t : Str) : Str := restoreText pairs t

theorem protectedL_mem {ner : List Str} {text : Str} :
    ∀ p ∈ protectedL ner text, p ∈ ner ∨ p ∈ findCaps text := by
  intro p hp
  rw [protectedL, (List.perm_insertionSort lenGE _).mem_iff] at hp
  rcases List.mem_append.1 (dedupF_subset _ p hp) with h | h
  · exact Or.inl h
  · exact Or.inr (List.mem_filter.1 h).1

theorem protectedL_clean {ner : List Str} {text : Str}
    (hner : ∀ p ∈ ner, p ≠ [] ∧ ∀ c ∈ p, isTagCh c = false) :
    ∀ p ∈ protectedL ner text, p ≠ [] ∧ ∀ c ∈ p, isTagCh c = false := by
  intro p hp
  rcases protectedL_mem p hp with h | h
  · exact hner p h
  · obtain ⟨hne, hch⟩ := findCaps_mem p h
    exact ⟨hne, fun c hc => tokCh_not_tag (hch c hc)⟩

/-! ## Language detection and `smart_translate`

External collaborators are a parameter record: `detect` models
`langdetect.detect` (with `none` for a raised `LangDetectException`),
`translate` models `GoogleTranslator(source=.., target=..).translate`,
and `ner` models the spaCy entity texts for a language (the empty list
when no model is loaded, as in the `except ImportError` fallback). -/

structure Backends where
  detect : Str → Option Str
  translate : Str → Str → Str → Str
  ner : Str → Str → List Str

def enS : Str := "en".toList

def esS : Str := "es".toList

/-- Model of `detect_lang` (lines 132–137). -/
def detectLang (det : Str → Option Str) (text : Str) : Str :=
  let code := match det text with
    | some c => c
    | none => esS
  if enS <+: code then enS else esS

/-- Python `str.strip()` restricted to ASCII whitespace. -/
def pyStrip (s : Str) : Str :=
  ((s.dropWhile isPySpace).reverse.dropWhile isPySpace).reverse

def isSentP (c : Char) : Bool := c = '.' || c = '!' || c = '?'

def prevSentP : Option Char → Bool
  | some q => isSentP q
  | none => false

/-- Model of `re.split(r"(?<=[.!?])\s+", temp)`: cut at every maximal whitespace
run directly preceded by `.`, `!` or `?`. -/
def splitSentAux : ℕ → Option Char → Str → Str → List Str
  | 0, _, cur, s => [cur.reverse ++ s]
  | _ + 1, _, cur, [] => [cur.reverse]
  | fuel + 1, prev, cur, c :: rest =>
    if prevSentP prev && isPySpace c then
      cur.reverse :: splitSentAux fuel (some ' ') [] ((c :: rest).dropWhile isPySpace)
    else
      splitSentAux fuel (some c) (c :: cur) rest

def splitSentences (s : Str) : List Str := splitSentAux (s.length + 1) none [] s

/-- One attempt of `TAG_RE = \[\[\s*(\d+)\s*]]` after an initial `[[`:
optional whitespace, at least one digit, optional whitespace, `]]`. -/
def parseTag (s : Str) : Option (Str × Str) :=
  let a := s.dropWhile isPySpace
  let d := a.span isDigitCh
  if d.1 ≠ [] then
    match d.2.dropWhile isPySpace with
    | ']' :: ']' :: rest => some (d.1, rest)
    | _ => none
  else none

/-- Model of the tag re-normalization
`TAG_RE.sub(lambda m: f"[[{m.group(1)}]]", translated)`: rewrite
every (possibly space-mangled) tag to the canonical tight form. -/
def tagNorm : ℕ → Str → Str
  | 0, s => s
  | _ + 1, [] => []
  | fuel + 1, c :: s =>
    if c = '[' then
      match s with
      | '[' :: s' =>
        match parseTag s' with
        | some (d, rest) => '[' :: '[' :: (d ++ (']' :: ']' :: tagNorm fuel rest))
        | none => '[' :: tagNorm fuel s
      | _ => '[' :: tagNorm fuel s
    else
      c :: tagNorm fuel s

/-- Model of `smart_translate` (lines 111–129). -/
def smartTranslate (B : Backends) (text : Str) : Str :=
  if pyStrip text = [] then text
  else
    let srcLang := match B.detect text with
      | some code => if enS <+: code then enS else esS
      | none => esS
    let tgtLang := if srcLang = enS then esS else enS
    let pe := protectEntities (B.ner srcLang text) text
    let sentences := splitSentences pe.1
    let translated := List.intercalate [' ']
      ((sentences.filter fun s => decide (s ≠ [])).map (B.translate srcLang tgtLang))
    restoreEntities pe.2 (tagNorm translated.length translated)

/-! ## Playback: tokenization, rendering and shared state -/

/-- Model of `WORDS = re.findall(r"\S+|\n", to_read)` (line 292): maximal
non-whitespace runs, with every newline kept as its own token and other
whitespace dropped. -/
def tokenizeAux : ℕ → Str → List Str
  | 0, _ => []
  | _ + 1, [] => []
  | fuel + 1, c :: s =>
    if c = '\n' then ['\n'] :: tokenizeAux fuel s
    else if isPySpace c then tokenizeAux fuel s
    else
      (c :: s.takeWhile fun x => !(isPySpace x)) ::
        tokenizeAux fuel (s.dropWhile fun x => !(isPySpace x))

def tokenize (s : Str) : List Str := tokenizeAux (s.length + 1) s

/-- One `html.Span` of the highlight box: its text and whether
`HIGHLIGHT_STYLE` was applied to it. -/
structure RSpan where
  content : Str
  highlighted : Bool
deriving DecidableEq

/-- Model of `spanified(words, idx)` (lines 169–174): one span per token, styled
exactly when its enumeration index equals `idx`, each followed by a
plain space span. -/
def spanifiedAux (idx : Int) : ℕ → List Str → List RSpan
  | _, [] => []
  | i, w :: ws =>
    ⟨w, decide ((i : Int) = idx)⟩ :: ⟨[' '], false⟩ :: spanifiedAux idx (i + 1) ws

def spanified (words : List Str) (idx : Int) : List RSpan := spanifiedAux idx 0 words

/-- The process-wide mutable playback state: `WORDS`, `WORD_IDX`,
`READING` (lines 50–52). -/
structure AppState where
  words : List Str
  wordIdx : Int
  reading : Bool
deriving DecidableEq

/-- Model of `on_stop` (lines 313–318): stop the engine if one is running, then
`READING, WORD_IDX = False, -1`. -/
def onStop (s : AppState) : AppState := { s with reading := false, wordIdx := -1 }

/-- The `on_word` engine callback (lines 187–189): `WORD_IDX += 1`, with
no bound check against `WORDS`. -/
def onWordCb (s : AppState) : AppState := { s with wordIdx := s.wordIdx + 1 }

/-! ## File upload: `extract_text` and `on_file_up`

The upload payload is modelled after base64 decoding (`raw`); the
`.docx`/`.odt`/`.pdf` extractors are external collaborators, with
`_safe_pdf_extract` returning the empty string on failure. -/

/-- Model of `pathlib.Path(filename).suffix`: the part from the last dot, empty
when there is no dot or the only dot starts the name. -/
def pySuffix (name : Str) : Str :=
  let pr := name.reverse.span fun c => decide (c ≠ '.')
  match pr.2 with
  | [] => []
  | _ :: rest => if rest = [] then [] else '.' :: pr.1.reverse

def pyLower (s : Str) : Str := s.map Char.toLower

def unsupportedMsg : Str := "Extensión no soportada → usa .txt / .docx / .odt / .pdf".toList

def extTxt : Str := ".txt".toList

def extDocx : Str := ".docx".toList

def extOdt : Str := ".odt".toList

def extPdf : Str := ".pdf".toList

/-- Model of `extract_text` (lines 140–157). -/
def extractText (docxF odtF pdfF : Str → Str) (raw : Str) (filename : Str) :
    Except Str Str :=
  let ext := pyLower (pySuffix filename)
  if ext = extTxt then Except.ok raw
  else if ext = extDocx then Except.ok (docxF raw)
  else if ext = extOdt then Except.ok (odtF raw)
  else if ext = extPdf ∧ pdfF raw ≠ [] then Except.ok (pdfF raw)
  else Except.error unsupportedMsg

def errPrefix : Str := "⚠️ Error leyendo archivo: ".toList

/-- Model of `on_file_up` (lines 267–273): a falsy upload yields `no_update`
(`none`); otherwise the extraction result — or the caught exception's
message — becomes the new `text-input` value. -/
def onFileUp (docxF odtF pdfF : Str → Str) (contents : Option Str) (filename : Str) :
    Option Str :=
  match contents with
  | none => none
  | some raw =>
    match extractText docxF odtF pdfF raw filename with
    | Except.ok t => some t
    | Except.error e => some (errPrefix ++ e)

/-- Dash update semantics for the callback output: `no_update` keeps the
previous value. -/
def applyUpd (old : Str) (out : Option Str) : Str := out.getD old

/-! ## Further helper lemmas for the claims -/

theorem tagL_injective {i j : ℕ} (h : tagL i = tagL j) : i = j := by
  simp only [tagL] at h
  injection h with h1 h2
  injection h2 with h3 h4
  exact natDigits_injective (List.append_cancel_right h4)

theorem protPairs_tags_nodup (ps : List Str) :
    ((protPairs ps).map Prod.snd).Nodup := by
  rw [protPairs, List.map_map]
  have h1 : (Prod.snd ∘ fun ip : ℕ × Str => (ip.2, tagL ip.1)) =
      (fun ip : ℕ × Str => tagL ip.1) := rfl
  rw [h1, show (fun ip : ℕ × Str => tagL ip.1) = tagL ∘ Prod.fst from rfl,
    ← List.map_map, List.enum_map_fst]
  exact (List.nodup_range ps.length).map (fun a b h => tagL_injective h)

theorem protPairs_get (ps : List Str) (i : ℕ) (hi : i < ps.length) :
    (protPairs ps)[i]? = some (ps[i], tagL i) := by
  rw [protPairs, List.getElem?_map, List.getElem?_enum,
    List.getElem?_eq_getElem hi]
  rfl

/-! ## The claims -/

def c1Text : Str := "San Martín y Martín hablan con Martín.".toList

/-- C1: for every text on which `_protect_entities` yields a non-empty
placeholder map, applying `_restore_entities` to the guarded text with
that map reconstructs the original text exactly.  The claim's
precondition that no protected span overlaps tag material is formalized
as: every protected span is free of tag characters (automatically true
for the regex candidates, by `protectedL_clean`; assumed for the spaCy
entity parameter), and — the claim's parenthetical — the original text
contains no literal tag-shaped substring `[[i]]`. -/
theorem c1_protect_restore_roundtrip (ner : List Str) (text : Str)
    (hner : ∀ p ∈ ner, p ≠ [] ∧ ∀ c ∈ p, isTagCh c = false)
    (hmap : (protectEntities ner text).2 ≠ [])
    (htext : ∀ i < (protectedL ner text).length, ¬ tagL i <:+: text) :
    restoreEntities (protectEntities ner text).2 (protectEntities ner text).1 = text :=
  guard_restore_roundtrip (protectedL ner text) text (protectedL_clean hner) htext

/-- C1 witness: the round trip on a concrete Spanish text that protects
the overlapping spans "San Martín" and "Martín". -/
theorem c1_witness :
    restoreEntities (protectEntities [] c1Text).2 (protectEntities [] c1Text).1 = c1Text :=
  c1_protect_restore_roundtrip [] c1Text (by simp) (by decide) (by decide)

/-- C9: for every text with no capitalized-run token (and no
named-entity candidate), `_protect_entities` returns the text unchanged
together with an empty placeholder map. -/
theorem c9_no_candidates_identity (ner : List Str) (text : Str)
    (hner : ner = []) (hcaps : findCaps text = []) :
    protectEntities ner text = (text, []) := by
  subst hner
  have h1 : protectedL [] text = [] := by
    simp [protectedL, regexCands, hcaps, dedupF]
  rw [protectEntities, h1]
  rfl

def c9Text : Str := "hola mundo, sin nombres.".toList

/-- C9 witness: a lowercase-only text. -/
theorem c9_witness : protectEntities [] c9Text = (c9Text, []) :=
  c9_no_candidates_identity [] c9Text rfl (by decide)

def c2Text : Str := "Maria con Pedro y Maria con Pedro.".toList

def mariaS : Str := "Maria".toList

def pedroS : Str := "Pedro".toList

def sanMartinS : Str := "San Martín".toList

def martinS : Str := "Martín".toList

/-- C2 counterexample: the de-duplicated candidate list for this text is
["Maria", "Pedro"], two distinct spans of equal length 5, so the list is
*not* ordered by strictly decreasing length as the claim states (its
order is only non-increasing). -/
theorem c2_counterexample :
    ¬ List.Chain' (fun a b : Str => b.length < a.length) (protectedL [] c2Text) := by
  intro h
  have he : protectedL [] c2Text = [mariaS, pedroS] := by decide
  rw [he, List.chain'_cons] at h
  exact absurd h.1 (by decide)

/-- C2 amended: the de-duplicated candidates are ordered by
*non-increasing* (not strictly decreasing) length before tag assignment;
the candidate at position `i` is mapped to the tag `[[i]]`, so all tags
of one call are distinct; substitution is performed by folding over the
map in exactly that order; and for the overlapping candidates
"San Martín" / "Martín" the longer span comes first and is substituted
first. -/
theorem c2_amended (ner : List Str) (text : Str) :
    List.Sorted lenGE (protectedL ner text) ∧
    (∀ i, (hi : i < (protectedL ner text).length) →
      (protPairs (protectedL ner text))[i]? =
        some ((protectedL ner text)[i], tagL i)) ∧
    ((protPairs (protectedL ner text)).map Prod.snd).Nodup ∧
    (protectEntities ner text).1 =
      (protPairs (protectedL ner text)).foldl (fun acc pt => replaceAll pt.1 pt.2 acc) text ∧
    protectedL [] c1Text = [sanMartinS, martinS] ∧
    (protectEntities [] c1Text).1 =
      replaceAll martinS (tagL 1) (replaceAll sanMartinS (tagL 0) c1Text) := by
  refine ⟨List.sorted_insertionSort lenGE _, protPairs_get _, protPairs_tags_nodup _,
    rfl, by decide, ?_⟩
  decide

/-- C2 amended witness: instantiating the indexed-tag clause at a
concrete call. -/
theorem c2_amended_witness :
    (protPairs (protectedL [] c1Text))[0]? =
      some ((protectedL [] c1Text)[0], tagL 0) :=
  (c2_amended [] c1Text).2.1 0 (by decide)

/-- C3: for every input that is empty or whitespace-only,
`smart_translate` returns the input unchanged; the result is the same
for *every* choice of detection/translation/NER backends, which is how
"invokes no external backend" is expressed in this embedding (the early
return precedes every backend call). -/
theorem c3_blank_identity (B : Backends) (text : Str) (h : pyStrip text = []) :
    smartTranslate B text = text := by
  rw [smartTranslate, if_pos h]

def trivialB : Backends := ⟨fun _ => none, fun _ _ s => s, fun _ _ => []⟩

/-- C3 witness: three spaces through a concrete backend record. -/
def blank3 : Str := "   ".toList

/-- C3 witness: a concrete backend record and a whitespace-only input. -/
theorem c3_witness : smartTranslate trivialB blank3 = blank3 :=
  c3_blank_identity trivialB blank3 (by decide)

/-- C7: `detect_lang` returns `"en"` or `"es"` and nothing else, and
when the wrapped langdetect call raises (modelled by `none`) it returns
`"es"` rather than propagating the error. -/
theorem c7_detect_lang_total (det : Str → Option Str) (text : Str) :
    (detectLang det text = enS ∨ detectLang det text = esS) ∧
    (det text = none → detectLang det text = esS) := by
  constructor
  · rw [detectLang]
    by_cases h : enS <+: (match det text with | some c => c | none => esS)
    · exact Or.inl (if_pos h)
    · exact Or.inr (if_neg h)
  · intro h
    rw [detectLang, h]
    decide

def abS : Str := "ab".toList

/-- C7 witness: a backend that always raises yields `"es"`. -/
theorem c7_witness : detectLang (fun _ => none) abS = esS :=
  (c7_detect_lang_total (fun _ => none) abS).2 rfl

/-- C8: `stop()` always leaves the state idle with cursor −1, is
idempotent, and is a no-op when the state is already idle. -/
theorem c8_stop_idempotent (s : AppState) :
    (onStop s).reading = false ∧ (onStop s).wordIdx = -1 ∧
    onStop (onStop s) = onStop s ∧
    (s.reading = false → s.wordIdx = -1 → onStop s = s) := by
  refine ⟨rfl, rfl, rfl, ?_⟩
  intro h1 h2
  cases s with
  | mk w i r =>
    simp only at h1 h2
    rw [onStop, h1, h2]

/-- C8 witness: stopping an already idle state changes nothing. -/
theorem c8_witness : onStop ⟨[], -1, false⟩ = (⟨[], -1, false⟩ : AppState) :=
  (c8_stop_idempotent ⟨[], -1, false⟩).2.2.2 rfl rfl

def c4Text : Str := "Hello\nworld".toList

def helloS : Str := "Hello".toList

def worldS : Str := "world".toList

/-- C4 counterexample: tokenization indeed yields
`["Hello", "\n", "world"]`, but rendering with cursor 1 *does* apply the
highlight style to the newline-marker token (it is the token at the
cursor), contradicting the claim that the highlight style is not applied
to it — `spanified` styles position `idx` unconditionally. -/
theorem c4_counterexample :
    tokenize c4Text = [helloS, ['\n'], worldS] ∧
    (spanified (tokenize c4Text) 1)[2]? = some ⟨['\n'], true⟩ := by
  constructor
  · decide
  · decide

/-- C4 amended: tokenizing `"Hello\nworld"` yields
`["Hello", "\n", "world"]`, and rendering with cursor 1 produces one
span per token (each followed by a space span) where the highlight style
is applied exactly to the newline-marker token at the cursor, whose
content stays the bare newline character (rendered as a line break only
by the surrounding `white-space: pre-wrap` style). -/
theorem c4_amended :
    tokenize c4Text = [helloS, ['\n'], worldS] ∧
    spanified (tokenize c4Text) 1 =
      [⟨helloS, false⟩, ⟨[' '], false⟩, ⟨['\n'], true⟩, ⟨[' '], false⟩,
        ⟨worldS, false⟩, ⟨[' '], false⟩] := by
  constructor
  · decide
  · decide

def c5OldDoc : Str := "Hola mundo".toList

def datosS : Str := "datos".toList

def xyzName : Str := "doc.xyz".toList

/-- C5 counterexample: uploading `doc.xyz` does *not* leave the current
document text unchanged — the caught error's message is returned into
the `text-input` value and replaces the document. -/
theorem c5_counterexample :
    applyUpd c5OldDoc (onFileUp id id id (some datosS) xyzName) ≠
      c5OldDoc := by
  decide

/-- C5 amended: uploading a file whose (lower-cased) extension is not in
the supported set produces the descriptive error message naming
`.txt / .docx / .odt / .pdf`, the exception is caught (the callback
returns a value instead of crashing), and that error text becomes the
new document text, replacing the previous one. -/
theorem c5_amended (docxF odtF pdfF : Str → Str) (raw : Str) (filename : Str)
    (hext : pyLower (pySuffix filename) ∉
      [extTxt, extDocx, extOdt, extPdf]) :
    extractText docxF odtF pdfF raw filename = Except.error unsupportedMsg ∧
    (extTxt <:+: unsupportedMsg ∧ extDocx <:+: unsupportedMsg ∧
      extOdt <:+: unsupportedMsg ∧ extPdf <:+: unsupportedMsg) ∧
    onFileUp docxF odtF pdfF (some raw) filename = some (errPrefix ++ unsupportedMsg) := by
  simp only [List.mem_cons, List.mem_singleton, not_or] at hext
  obtain ⟨h1, h2, h3, h4, -⟩ := hext
  have hx : extractText docxF odtF pdfF raw filename = Except.error unsupportedMsg := by
    rw [extractText]
    rw [if_neg h1, if_neg h2, if_neg h3, if_neg (fun hc => h4 hc.1)]
  refine ⟨hx, by decide, ?_⟩
  rw [onFileUp, hx]

/-- C5 witness: the amended claim at the extension `.xyz`. -/
theorem c5_witness :
    extractText id id id datosS xyzName = Except.error unsupportedMsg ∧
    (extTxt <:+: unsupportedMsg ∧ extDocx <:+: unsupportedMsg ∧
      extOdt <:+: unsupportedMsg ∧ extPdf <:+: unsupportedMsg) ∧
    onFileUp id id id (some datosS) xyzName =
      some (errPrefix ++ unsupportedMsg) :=
  c5_amended id id id datosS xyzName (by decide)

/-! C10 helper lemmas about `spanifiedAux`. -/

theorem spanifiedAux_length (idx : Int) :
    ∀ (ws : List Str) (i : ℕ), (spanifiedAux idx i ws).length = 2 * ws.length := by
  intro ws
  induction ws with
  | nil => intro i; rfl
  | cons w ws ih =>
    intro i
    simp only [spanifiedAux, List.length_cons, ih (i + 1)]
    omega

theorem spanifiedAux_count (idx : Int) :
    ∀ (ws : List Str) (i : ℕ),
      (spanifiedAux idx i ws).countP (fun sp => sp.highlighted) =
        if (i : Int) ≤ idx ∧ idx < (i : Int) + ws.length then 1 else 0 := by
  intro ws
  induction ws with
  | nil =>
    intro i
    have hc : ¬((i : Int) ≤ idx ∧ idx < (i : Int) + ([] : List Str).length) := by
      simp only [List.length_nil, Nat.cast_zero, add_zero]
      omega
    simp only [spanifiedAux, List.countP_nil]
    rw [if_neg hc]
  | cons w ws ih =>
    intro i
    simp only [spanifiedAux, List.countP_cons, ih (i + 1), List.length_cons,
      decide_eq_true_eq, Bool.false_eq_true, if_false, add_zero]
    push_cast
    split_ifs <;> omega

theorem spanifiedAux_get (idx : Int) :
    ∀ (ws : List Str) (i k : ℕ), (hk : k < ws.length) →
      (spanifiedAux idx i ws)[2 * k]? =
        some ⟨ws[k], decide ((((i + k : ℕ)) : Int) = idx)⟩ ∧
      (spanifiedAux idx i ws)[2 * k + 1]? = some ⟨[' '], false⟩ := by
  intro ws
  induction ws with
  | nil =>
    intro i k hk
    simp at hk
  | cons w ws ih =>
    intro i k hk
    cases k with
    | zero =>
      constructor
      · simp [spanifiedAux]
      · simp [spanifiedAux]
    | succ k' =>
      have hk' : k' < ws.length := by
        simp only [List.length_cons] at hk
        omega
      have hrec := ih (i + 1) k' hk'
      rw [show (i + 1) + k' = i + (k' + 1) from by omega] at hrec
      have h2 : 2 * (k' + 1) = 2 * k' + 1 + 1 := by omega
      have h3 : 2 * (k' + 1) + 1 = (2 * k' + 1 + 1) + 1 := by omega
      constructor
      · rw [h2]
        simp only [spanifiedAux, List.getElem?_cons_succ]
        rw [hrec.1]
        simp [List.getElem_cons_succ]
      · rw [h3]
        simp only [spanifiedAux, List.getElem?_cons_succ]
        exact hrec.2

/-- C10: `spanified` is total for every word list and every integer
cursor (including −1 and values at or past the length, which are
reachable because `on_word` increments the shared cursor without any
bound check); its output has exactly one token span and one separator
span per input token; the token span at list position `2k` carries the
highlight exactly when `k` equals the cursor, the separator spans are
never highlighted, and so at most one span is highlighted — exactly one
when `0 ≤ idx < length`, none otherwise. -/
theorem c10_spanified_safe (ws : List Str) (idx : Int) :
    (spanified ws idx).length = 2 * ws.length ∧
    (spanified ws idx).countP (fun sp => sp.highlighted) =
      (if 0 ≤ idx ∧ idx < (ws.length : Int) then 1 else 0) ∧
    (∀ k, (hk : k < ws.length) →
      (spanified ws idx)[2 * k]? = some ⟨ws[k], decide ((k : Int) = idx)⟩ ∧
      (spanified ws idx)[2 * k + 1]? = some ⟨[' '], false⟩) ∧
    (∀ s : AppState, (onWordCb s).wordIdx = s.wordIdx + 1) := by
  refine ⟨spanifiedAux_length idx ws 0, ?_, ?_, fun s => rfl⟩
  · rw [spanified, spanifiedAux_count idx ws 0]
    simp
  · intro k hk
    have := spanifiedAux_get idx ws 0 k hk
    simpa using this

/-- C10 witness: an out-of-range cursor highlights no span. -/
theorem c10_witness :
    (spanified [['a', 'b'], ['c']] 5).length = 2 * 2 ∧
    (spanified [['a', 'b'], ['c']] 5).countP (fun sp => sp.highlighted) = 0 ∧
    (spanified [['a', 'b'], ['c']] 5)[0]? = some ⟨['a', 'b'], false⟩ := by
  have h := c10_spanified_safe [['a', 'b'], ['c']] 5
  refine ⟨h.1, ?_, ?_⟩
  · rw [h.2.1]
    decide
  · have h3 := (h.2.2.1 0 (by decide)).1
    simpa using h3

end Lector
